import Mathlib

/-!
Verification of the OrionTV playback-resilience core: the M3U/HLS playlist
filter engine (`src/services/m3u.ts`), the player-store candidate fallback
protocol (`src/stores/playerStore.ts`), the video error handlers, and the
live-player fallback controller.

Strings are modelled with Lean `String` (a wrapper around `List Char`);
the JavaScript functions are translated line by line.  Platform primitives
(the WHATWG `URL` constructor, `fetch`, the filesystem) are modelled
explicitly: `URL` by a simplified hierarchical parser/serializer described
at `parseHier`, and the effectful primitives by an environment record of
oracles.
-/

namespace OrionTV

/-! ## Basic character and string utilities -/

/-- The JavaScript white-space set used by `String.prototype.trim`
(space, tab, LF, VT, FF, CR, NBSP, ogham/Unicode spaces, BOM). -/
def isJsWs (c : Char) : Bool :=
  c.toNat = 9 || c.toNat = 10 || c.toNat = 11 || c.toNat = 12 || c.toNat = 13 ||
  c.toNat = 32 || c.toNat = 160 || c.toNat = 5760 ||
  (8192 ≤ c.toNat && c.toNat ≤ 8202) || c.toNat = 8232 || c.toNat = 8233 ||
  c.toNat = 8239 || c.toNat = 8287 || c.toNat = 12288 || c.toNat = 65279

/-- Trim of a character list at both ends, as JS `trim()`. -/
def trimChars (l : List Char) : List Char :=
  ((l.dropWhile isJsWs).reverse.dropWhile isJsWs).reverse

/-- JS `s.trim()`. -/
def jsTrim (s : String) : String := String.mk (trimChars s.data)

/-- Boolean prefix test on character lists. -/
def listPrefixOf : List Char → List Char → Bool
  | [], _ => true
  | _ :: _, [] => false
  | c :: cs, d :: ds => c = d && listPrefixOf cs ds

/-- JS `s.startsWith(p)`. -/
def jsStartsWith (s p : String) : Bool := listPrefixOf p.data s.data

/-- Substring scan used for JS `s.includes(sub)`. -/
def hasSubAux (sub : List Char) : List Char → Bool
  | [] => listPrefixOf sub []
  | l@(_ :: rest) => listPrefixOf sub l || hasSubAux sub rest

/-- JS `s.includes(sub)`. -/
def jsIncludes (s sub : String) : Bool := hasSubAux sub.data s.data

/-- Split on the regex `/\r?\n/` (a LF, optionally preceded by CR). -/
def splitRN : List Char → List (List Char)
  | [] => [[]]
  | '\r' :: '\n' :: rest => [] :: splitRN rest
  | '\n' :: rest => [] :: splitRN rest
  | c :: rest =>
    match splitRN rest with
    | [] => [[c]]
    | h :: t => (c :: h) :: t

/-- JS `text.split(/\r?\n/)`. -/
def splitLines (s : String) : List String := (splitRN s.data).map String.mk

/-- `\n`-intercalation of character lists. -/
def joinN : List (List Char) → List Char
  | [] => []
  | [x] => x
  | x :: xs => x ++ '\n' :: joinN xs

/-- JS `lines.join("\n")`. -/
def joinLines (ls : List String) : String := String.mk (joinN (ls.map String.data))

/-- Worker for `dedupKeepFirst`: `seen` holds the values already emitted. -/
def dedupSeen (seen : List String) : List String → List String
  | [] => []
  | x :: xs => if x ∈ seen then dedupSeen seen xs else x :: dedupSeen (x :: seen) xs

/-- `Array.from(new Set(l))`: removes duplicates keeping first occurrences. -/
def dedupKeepFirst (l : List String) : List String := dedupSeen [] l

/-- JS truthiness of a `string | null` value (`null` and `""` are falsy). -/
def strTruthy : Option String → Bool
  | none => false
  | some s => s ≠ ""

/-! ## `encodeURIComponent` -/

/-- Characters `encodeURIComponent` leaves unescaped
(`A-Z a-z 0-9 - _ . ! ~ * ' ( )`). -/
def isUnreservedUriChar (c : Char) : Bool :=
  ('A' ≤ c && c ≤ 'Z') || ('a' ≤ c && c ≤ 'z') || ('0' ≤ c && c ≤ '9') ||
  c = '-' || c = '_' || c = '.' || c = '!' || c = '~' || c = '*' ||
  c = Char.ofNat 39 || c = '(' || c = ')'

/-- Upper-case hexadecimal digit for `n < 16`. -/
def hexDigitUpper (n : Nat) : Char :=
  if n < 10 then Char.ofNat (48 + n) else Char.ofNat (55 + n)

/-- `%XX` escape of one byte. -/
def pctByte (b : Nat) : List Char := ['%', hexDigitUpper (b / 16), hexDigitUpper (b % 16)]

/-- UTF-8 bytes of a code point. -/
def utf8Bytes (n : Nat) : List Nat :=
  if n < 128 then [n]
  else if n < 2048 then [192 + n / 64, 128 + n % 64]
  else if n < 65536 then [224 + n / 4096, 128 + (n / 64) % 64, 128 + n % 64]
  else [240 + n / 262144, 128 + (n / 4096) % 64, 128 + (n / 64) % 64, 128 + n % 64]

/-- One character of `encodeURIComponent` output. -/
def encChar (c : Char) : List Char :=
  if isUnreservedUriChar c then [c] else (utf8Bytes c.toNat).flatMap pctByte

/-- JS `encodeURIComponent`. -/
def encodeURIComponent (s : String) : String := String.mk (s.data.flatMap encChar)

/-! ## URL predicates from `m3u.ts` -/

/-- Lower-case an ASCII letter. -/
def lowerChar (c : Char) : Char :=
  if 65 ≤ c.toNat && c.toNat ≤ 90 then Char.ofNat (c.toNat + 32) else c

def toLowerList (l : List Char) : List Char := l.map lowerChar

/-- `isHttpLiveUrl`: `/^https?:\/\//i` on a non-empty string
(`!url` rejects `""` and `null`). -/
def isHttpLiveUrl (url : String) : Bool :=
  url ≠ "" &&
  (listPrefixOf "http://".data (toLowerList url.data) ||
   listPrefixOf "https://".data (toLowerList url.data))

/-- One position of the `/\.m3u8($|\?)/i` scan. -/
def m3u8At : List Char → Bool
  | '.' :: m :: '3' :: u :: '8' :: rest =>
    lowerChar m = 'm' && lowerChar u = 'u' && (rest = [] || rest.head? = some '?')
  | _ => false

def hasM3u8 : List Char → Bool
  | [] => false
  | l@(_ :: rest) => m3u8At l || hasM3u8 rest

/-- `isM3u8LiveUrl`: `/\.m3u8($|\?)/i` on a non-empty string. -/
def isM3u8LiveUrl (url : String) : Bool := url ≠ "" && hasM3u8 url.data

/-- `apiBaseUrl.replace(/\/$/, "")`: drop one trailing slash. -/
def normalizeApiBaseUrl (apiBaseUrl : String) : String :=
  if apiBaseUrl.data.getLast? = some '/' then String.mk apiBaseUrl.data.dropLast
  else apiBaseUrl

/-! ## Model of the WHATWG `URL` platform builtin

`resolveUrl(baseUrl, inputUrl)` in the source is `new URL(inputUrl, baseUrl).toString()`
with a `catch` returning `inputUrl`.  The `URL` class is a platform primitive, not
repository code; it is modelled here by a hierarchical parser/serializer that keeps
the behaviours the repository relies on: input sanitisation (strip surrounding
C0-controls/space, remove tabs and newlines), scheme detection and lower-casing,
authority/path/query splitting, relative-reference resolution against a base, a
canonical serialisation that percent-encodes controls, spaces, quotes and
non-ASCII, and failure (caught by the source) when no base is usable.  Dot-segment
normalisation and host case-folding are not modelled. -/

/-- WHATWG input sanitisation: trim C0-control-or-space at both ends, then
remove every tab, LF and CR. -/
def sanitizeUrl (l : List Char) : List Char :=
  (((l.dropWhile (fun c => c.toNat ≤ 32)).reverse.dropWhile (fun c => c.toNat ≤ 32)).reverse).filter
    (fun c => ¬(c.toNat = 9 || c.toNat = 10 || c.toNat = 13))

def isAsciiAlpha (c : Char) : Bool :=
  (65 ≤ c.toNat && c.toNat ≤ 90) || (97 ≤ c.toNat && c.toNat ≤ 122)

def isSchemeChar (c : Char) : Bool :=
  isAsciiAlpha c || (48 ≤ c.toNat && c.toNat ≤ 57) ||
  c.toNat = 43 || c.toNat = 45 || c.toNat = 46

/-- Split a leading `scheme:` (first char ASCII alpha) off a URL string. -/
def parseScheme (l : List Char) : Option (List Char × List Char) :=
  match l with
  | [] => none
  | c :: _ =>
    if isAsciiAlpha c then
      match l.dropWhile isSchemeChar with
      | ':' :: r => some (toLowerList (l.takeWhile isSchemeChar), r)
      | _ => none
    else none

/-- A parsed hierarchical URL: `scheme://auth path ?query`. -/
structure HierUrl where
  scheme : List Char
  auth : List Char
  path : List Char
  query : Option (List Char)
  deriving DecidableEq

def notAuthEnd (c : Char) : Bool := ¬(c = '/' || c = '?')

def notQuery (c : Char) : Bool := c ≠ '?'

/-- Split `auth`, `path`, `?query` off the part following `scheme://`. -/
def parseAfterAuth (rest2 : List Char) : List Char × List Char × Option (List Char) :=
  let auth := rest2.takeWhile notAuthEnd
  let after := rest2.dropWhile notAuthEnd
  let path := after.takeWhile notQuery
  let query := match after.dropWhile notQuery with
    | '?' :: q => some q
    | _ => none
  (auth, path, query)

/-- Parse an absolute hierarchical URL (`scheme://...`). -/
def parseHier (l : List Char) : Option HierUrl :=
  match parseScheme l with
  | some (sch, rest) =>
    if rest.take 2 = ['/', '/'] then
      some ⟨sch, (parseAfterAuth (rest.drop 2)).1, (parseAfterAuth (rest.drop 2)).2.1,
        (parseAfterAuth (rest.drop 2)).2.2⟩
    else none
  | none => none

/-- Characters serialised verbatim (printable ASCII except `"`); everything
else is percent-encoded. -/
def urlPlainChar (c : Char) : Bool := 33 ≤ c.toNat && c.toNat ≤ 126 && c.toNat ≠ 34

def urlEncChar (c : Char) : List Char :=
  if urlPlainChar c then [c] else (utf8Bytes c.toNat).flatMap pctByte

/-- Characters a `%XX` escape can produce: `%`, a decimal digit, or `A`-`F`. -/
def pctOutChar (c : Char) : Prop :=
  c.toNat = 37 ∨ (48 ≤ c.toNat ∧ c.toNat ≤ 57) ∨ (65 ≤ c.toNat ∧ c.toNat ≤ 70)

/-- The well-formedness invariant of parsed/merged hierarchical URLs: a
non-empty lower-cased scheme led by an ASCII letter, an authority free of
`/` and `?`, and a path that is empty or absolute and free of `?`. -/
def UrlInv (u : HierUrl) : Prop :=
  (∃ c cs, u.scheme = c :: cs ∧ isAsciiAlpha c = true) ∧
  (∀ c ∈ u.scheme, isSchemeChar c = true) ∧
  toLowerList u.scheme = u.scheme ∧
  (∀ c ∈ u.auth, notAuthEnd c = true) ∧
  (u.path = [] ∨ u.path.head? = some '/') ∧
  (∀ c ∈ u.path, notQuery c = true)

/-- Percent-encoding pass of the serializer. -/
def pe (l : List Char) : List Char := l.flatMap urlEncChar

/-- Serialise a hierarchical URL; an empty path prints as `/`. -/
def serializeHier (u : HierUrl) : List Char :=
  u.scheme ++ ':' :: '/' :: '/' :: pe u.auth ++
    (if u.path = [] then ['/'] else pe u.path) ++
    (match u.query with
     | some q => '?' :: pe q
     | none => [])

/-- `path` up to and including its last `/` (the resolution directory);
`/` when there is none. -/
def dirOf (p : List Char) : List Char :=
  let d := (p.reverse.dropWhile (fun c => c ≠ '/')).reverse
  if d = [] then ['/'] else d

/-- Resolve a (sanitised) relative reference against a base URL. -/
def mergeRel (b : HierUrl) (i : List Char) : HierUrl :=
  match i with
  | [] => b
  | '/' :: '/' :: rest2 =>
    let (auth, path, query) := parseAfterAuth rest2
    ⟨b.scheme, auth, path, query⟩
  | '/' :: _ =>
    ⟨b.scheme, b.auth, i.takeWhile notQuery,
      (match i.dropWhile notQuery with
       | '?' :: q => some q
       | _ => none)⟩
  | '?' :: q => ⟨b.scheme, b.auth, b.path, some q⟩
  | _ =>
    let joined := dirOf b.path ++ i
    ⟨b.scheme, b.auth, joined.takeWhile notQuery,
      (match joined.dropWhile notQuery with
       | '?' :: q => some q
       | _ => none)⟩

/-- `resolveUrl(baseUrl, inputUrl)`: `new URL(inputUrl, baseUrl).toString()`,
returning `inputUrl` unchanged when the constructor would throw.  An absolute
non-hierarchical input (`scheme:` without `//`) serialises opaquely. -/
def resolveUrl (baseUrl inputUrl : String) : String :=
  let i := sanitizeUrl inputUrl.data
  match parseHier i with
  | some u => String.mk (serializeHier u)
  | none =>
    match parseScheme i with
    | some (sch, rest) => String.mk (sch ++ ':' :: pe rest)
    | none =>
      match parseHier (sanitizeUrl baseUrl.data) with
      | some b => String.mk (serializeHier (mergeRel b i))
      | none => inputUrl

/-! ## Playlist filter engine (`m3u.ts`) -/

/-- The ad-marker tags (`AD_MARKER_TAGS`). -/
def AD_MARKER_TAGS : List String :=
  ["#EXT-X-DISCONTINUITY", "#EXT-X-CUE-OUT", "#EXT-X-CUE-IN", "#EXT-OATCLS-SCTE35", "#EXT-X-SCTE35"]

/-- `shouldFilterTag`: does any ad-marker tag prefix the line? -/
def shouldFilterTag (line : String) : Bool :=
  AD_MARKER_TAGS.any (fun tag => jsStartsWith line tag)

/-- The literal `URI="` looked for by the rewrite regex. -/
def uriPrefix : List Char := ['U', 'R', 'I', '=', '"']

/-- Scanner for `line.replace(/URI="([^"]+)"/g, (_, v) => `URI="${resolveUrl(base, v)}"`)`:
at each position, a match needs the prefix `URI="`, a non-empty quote-free value
and a closing quote; matches do not overlap, and scanning resumes after the
closing quote, as with a global regex. -/
def scanUri (b : String) (l : List Char) : List Char :=
  if hl : l = [] then []
  else
    if l.take 5 = uriPrefix then
      let after := l.drop 5
      let v := after.takeWhile (fun d => d ≠ '"')
      if v ≠ [] ∧ after.drop v.length ≠ [] then
        uriPrefix ++ (resolveUrl b (String.mk v)).data ++
          '"' :: scanUri b (after.drop (v.length + 1))
      else l.head hl :: scanUri b l.tail
    else l.head hl :: scanUri b l.tail
  termination_by l.length
  decreasing_by
  · have := List.length_pos.mpr hl
    simp only [List.length_drop]
    omega
  · have := List.length_pos.mpr hl
    simp only [List.length_tail]
    omega
  · have := List.length_pos.mpr hl
    simp only [List.length_tail]
    omega

/-- `rewriteUriAttribute(line, baseUrl)`. -/
def rewriteUriAttribute (line baseUrl : String) : String :=
  String.mk (scanUri baseUrl line.data)

/-- One iteration of the `filterAndNormalizeMediaPlaylist` loop: `none` means
the line is skipped (`continue`), `some` the line pushed. -/
def processLine (baseUrl : String) (rawLine : String) : Option String :=
  let line := jsTrim rawLine
  if line = "" then none
  else if shouldFilterTag line then none
  else if jsStartsWith line "#EXT-X-MAP:" || jsStartsWith line "#EXT-X-KEY:" then
    some (rewriteUriAttribute line baseUrl)
  else if jsStartsWith line "#" then some line
  else some (resolveUrl baseUrl line)

/-- Prepend the `#EXTM3U` header unless the first line already carries it. -/
def ensureHeader (normalizedLines : List String) : List String :=
  match normalizedLines with
  | l :: _ => if jsStartsWith l "#EXTM3U" then normalizedLines else "#EXTM3U" :: normalizedLines
  | [] => ["#EXTM3U"]

/-- `filterAndNormalizeMediaPlaylist(playlistText, baseUrl)`. -/
def filterAndNormalizeMediaPlaylist (playlistText baseUrl : String) : String :=
  joinLines (ensureHeader ((splitLines playlistText).filterMap (processLine baseUrl)))

/-! ## `hashString` (FNV-style hash with JS 32-bit arithmetic) -/

/-- JS `ToInt32`. -/
def toInt32 (i : Int) : Int :=
  let u := i.emod 4294967296
  if u < 2147483648 then u else u - 4294967296

/-- JS `x >>> 0`. -/
def toUint32 (i : Int) : Nat := (i.emod 4294967296).toNat

/-- The UTF-16 code units of a code point (JS strings are UTF-16;
`charCodeAt` yields one unit per index). -/
def utf16Units (n : Nat) : List Nat :=
  if n < 65536 then [n] else [55296 + (n - 65536) / 1024, 56320 + (n - 65536) % 1024]

/-- One loop iteration of `hashString`: `hash ^= code;
hash += (hash<<1)+(hash<<4)+(hash<<7)+(hash<<8)+(hash<<24)` with JS
Int32 bitwise operators and exact float addition. -/
def hashStep (h : Int) (code : Nat) : Int :=
  let x := toInt32 (Int.ofNat (Nat.xor (toUint32 h) code))
  x + toInt32 (x * 2) + toInt32 (x * 16) + toInt32 (x * 128) + toInt32 (x * 256) +
    toInt32 (x * 16777216)

/-- `hashString(value)`: FNV-offset seeded mixing over UTF-16 code units,
finished by `>>> 0` and lower-case hex rendering (JS `toString(16)`). -/
def hashString (value : String) : String :=
  String.mk (Nat.toDigits 16 (toUint32 ((value.data.flatMap (fun c => utf16Units c.toNat)).foldl hashStep 2166136261)))

/-! ## Master-playlist resolution and the cached filtered-playlist pipeline

`fetch`, the abort timeout and the filesystem are platform effects; they are
modelled by an oracle record `FsEnv`.  A `fetch` (or write/mkdir) failure is an
`Except.error`. -/

structure FetchResult where
  text : String
  finalUrl : String

structure FsEnv where
  /-- `fetchM3u8WithTimeout`: either the body and final (post-redirect) URL,
  or a network/HTTP/timeout failure. -/
  fetch : String → Except Unit FetchResult
  /-- `FileSystem.getInfoAsync(uri).exists`. -/
  fileExists : String → Bool
  /-- Does `makeDirectoryAsync` succeed? -/
  mkdirOk : Bool
  /-- Does `writeAsStringAsync(uri, ...)` succeed? -/
  writeOk : String → Bool
  /-- `FileSystem.cacheDirectory`. -/
  cacheDirectory : String

/-- Case-insensitive scan for `BANDWIDTH=` followed by at least one digit
(the regex `/BANDWIDTH=(\d+)/i`), returning the digit run's value. -/
def findBandwidth : List Char → Option Nat
  | [] => none
  | l@(_ :: rest) =>
    if listPrefixOf "bandwidth=".data (toLowerList (l.take 10)) ∧
        ((l.drop 10).takeWhile (fun c => c.isDigit)) ≠ [] then
      some (((l.drop 10).takeWhile (fun c => c.isDigit)).foldl
        (fun n c => n * 10 + (c.toNat - 48)) 0)
    else findBandwidth rest

/-- The inner `while` of `parseVariantPlaylistUrls`: the first non-blank line
after a `#EXT-X-STREAM-INF` line, unless it is a tag line (`#...`). -/
def variantLookahead (lines : List String) : Option String :=
  match (lines.map jsTrim).dropWhile (fun l => l = "") with
  | [] => none
  | nl :: _ => if jsStartsWith nl "#" then none else some nl

/-- The outer loop of `parseVariantPlaylistUrls`, before sorting. -/
def collectVariants (baseUrl : String) : List String → List (String × Nat)
  | [] => []
  | l :: rest =>
    let line := jsTrim l
    if jsStartsWith line "#EXT-X-STREAM-INF" then
      match variantLookahead rest with
      | some nl => (resolveUrl baseUrl nl, (findBandwidth line.data).getD 0) :: collectVariants baseUrl rest
      | none => collectVariants baseUrl rest
    else collectVariants baseUrl rest

/-- `parseVariantPlaylistUrls(playlistText, baseUrl)`: variants sorted by
descending bandwidth (stable, as JS `Array.prototype.sort`). -/
def parseVariantPlaylistUrls (playlistText baseUrl : String) : List (String × Nat) :=
  (collectVariants baseUrl (splitLines playlistText)).mergeSort (fun a b => b.2 ≤ a.2)

/-- The variant probe loop of `resolveToMediaPlaylist`: fetch failures are
caught and skipped; the first variant whose body contains `#EXTINF` wins. -/
def tryVariants (env : FsEnv) : List (String × Nat) → Option FetchResult
  | [] => none
  | (vu, _) :: rest =>
    match env.fetch vu with
    | Except.ok vp => if jsIncludes vp.text "#EXTINF" then some vp else tryVariants env rest
    | Except.error _ => tryVariants env rest

/-- `resolveToMediaPlaylist(playlistUrl)`: the primary fetch may fail (the
error propagates to the caller's `try`); a master playlist is resolved to the
best media playlist, falling back to the primary body. -/
def resolveToMediaPlaylist (env : FsEnv) (playlistUrl : String) : Except Unit FetchResult := do
  let primary ← env.fetch playlistUrl
  if ¬jsIncludes primary.text "#EXT-X-STREAM-INF" then
    return primary
  else
    let variants := parseVariantPlaylistUrls primary.text primary.finalUrl
    if variants = [] then
      return primary
    else
      match tryVariants env variants with
      | some vp => return vp
      | none => return primary

/-- `FILTER_CACHE_DIR`. -/
def FILTER_CACHE_DIR (env : FsEnv) : String := env.cacheDirectory ++ "ad-filtered-m3u8/"

/-- The `try` block of `createDiscontinuityFilteredM3u8Url`: any `Except.error`
is what the source catches. -/
def createFilteredBody (env : FsEnv) (originalUrl : String) : Except Unit (Option String) := do
  let playlist ← resolveToMediaPlaylist env originalUrl
  if ¬jsIncludes playlist.text "#EXTM3U" then
    return none
  else
    let filteredPlaylist := filterAndNormalizeMediaPlaylist playlist.text playlist.finalUrl
    if ¬jsIncludes filteredPlaylist "#EXTINF" then
      return none
    else
      if ¬env.mkdirOk then throw ()
      else
        let fileUri := FILTER_CACHE_DIR env ++ hashString originalUrl ++ ".m3u8"
        if ¬env.writeOk fileUri then throw ()
        else return (some fileUri)

/-- `createDiscontinuityFilteredM3u8Url(originalUrl)`; the module-level
`filteredPlaylistCache` map is passed explicitly as an association list (its
update on success is not modelled — the claim concerns the return value). -/
def createDiscontinuityFilteredM3u8Url (env : FsEnv) (cache : List (String × String))
    (originalUrl : String) : Option String :=
  if ¬(isHttpLiveUrl originalUrl && isM3u8LiveUrl originalUrl) then none
  else
    let tryRun : Option String :=
      match createFilteredBody env originalUrl with
      | Except.ok r => r
      | Except.error _ => none
    match cache.lookup originalUrl with
    | some cachedUrl => if env.fileExists cachedUrl then some cachedUrl else tryRun
    | none => tryRun

/-! ## Candidate resolver (`getAdFilteredM3u8Candidates`, `getPlaybackUrlCandidates`) -/

/-- The `&source=...&moontv-source=...` parameter pair. -/
def sourceParam (sourceKey : String) : String :=
  "&source=" ++ encodeURIComponent sourceKey ++ "&moontv-source=" ++ encodeURIComponent sourceKey

/-- The `&token=...` parameter (empty when the token is absent or falsy). -/
def tokenParam (proxyToken : Option String) : String :=
  if strTruthy proxyToken then "&token=" ++ encodeURIComponent (proxyToken.getD "") else ""

/-- The modern proxy candidate `.../api/proxy-m3u8?url=...`. -/
def modernProxyUrl (originalUrl apiBaseUrl sourceKey : String) (proxyToken : Option String) : String :=
  normalizeApiBaseUrl apiBaseUrl ++ "/api/proxy-m3u8?url=" ++ encodeURIComponent originalUrl ++
    sourceParam sourceKey ++ tokenParam proxyToken

/-- The legacy proxy candidate `.../api/proxy/m3u8?url=...`. -/
def legacyProxyUrl (originalUrl apiBaseUrl sourceKey : String) : String :=
  normalizeApiBaseUrl apiBaseUrl ++ "/api/proxy/m3u8?url=" ++ encodeURIComponent originalUrl ++
    "&moontv-source=" ++ encodeURIComponent sourceKey

/-- `getAdFilteredM3u8Candidates(originalUrl, apiBaseUrl, sourceKey, proxyToken)`. -/
def getAdFilteredM3u8Candidates (originalUrl : Option String) (apiBaseUrl sourceKey : String)
    (proxyToken : Option String) : List String :=
  if ¬strTruthy originalUrl || apiBaseUrl = "" || sourceKey = "" then []
  else
    let url := originalUrl.getD ""
    if ¬(isHttpLiveUrl url && isM3u8LiveUrl url) then []
    else
      dedupKeepFirst [modernProxyUrl url apiBaseUrl sourceKey proxyToken,
                      legacyProxyUrl url apiBaseUrl sourceKey]

/-- `getPlaybackUrlCandidates(originalUrl, apiBaseUrl, sourceKey, adBlockEnabled, proxyToken)`.
The source swaps the first two ad-filtered candidates when there are more than
one (`[c[1], c[0]]`; the list never has more than two entries). -/
def getPlaybackUrlCandidates (originalUrl : Option String) (apiBaseUrl sourceKey : String)
    (adBlockEnabled : Bool) (proxyToken : Option String) : List String :=
  let fallbackCandidates := if strTruthy originalUrl then [originalUrl.getD ""] else []
  let adFilteredCandidates := getAdFilteredM3u8Candidates originalUrl apiBaseUrl sourceKey proxyToken
  let prioritizedAdFilteredCandidates :=
    match adFilteredCandidates with
    | a :: b :: _ => [b, a]
    | l => l
  let orderedCandidates :=
    if adBlockEnabled then prioritizedAdFilteredCandidates ++ fallbackCandidates
    else fallbackCandidates ++ prioritizedAdFilteredCandidates
  dedupKeepFirst (orderedCandidates.filter (fun u => u ≠ ""))

/-! ## Player store (`playerStore.ts`)

The zustand store is modelled by an explicit state record; only the fields the
candidate-fallback protocol touches are carried (`episodes`,
`currentEpisodeIndex`, `isLoading`).  The settings-store read inside
`mapEpisodesForPlayback` becomes explicit parameters. -/

structure Episode where
  url : String
  rawUrl : String
  title : String
  urlCandidates : List String
  currentCandidateIndex : Nat
  deriving DecidableEq

structure PlayerState where
  episodes : List Episode
  /-- JS number: `-1` before any load, hence `Int`. -/
  currentEpisodeIndex : Int
  isLoading : Bool
  deriving DecidableEq

/-- `episodes[currentEpisodeIndex]` with JS out-of-range/negative indexing
yielding `undefined`. -/
def epAt (episodes : List Episode) (i : Int) : Option Episode :=
  if i < 0 then none else episodes.get? i.toNat

/-- `` `Episode ${index + 1}` ``. -/
def getEpisodeTitle (index : Nat) : String := "Episode " ++ toString (index + 1)

/-- One element of `mapEpisodesForPlayback`. -/
def mapOneEpisode (apiBaseUrl : String) (vodAdBlockEnabled : Bool) (sourceKey : String)
    (index : Nat) (episodeUrl : String) : Episode :=
  let playbackCandidates :=
    getPlaybackUrlCandidates (some episodeUrl) apiBaseUrl sourceKey vodAdBlockEnabled none
  let uniqueCandidates :=
    dedupKeepFirst (((if playbackCandidates ≠ [] then playbackCandidates else []) ++
      [episodeUrl]).filter (fun u => u ≠ ""))
  { url := match uniqueCandidates.head? with
           | some h => if h = "" then episodeUrl else h
           | none => episodeUrl
    rawUrl := episodeUrl
    title := getEpisodeTitle index
    urlCandidates := uniqueCandidates
    currentCandidateIndex := 0 }

/-- `mapEpisodesForPlayback(episodeUrls, sourceKey)` (the settings-store read
of `apiBaseUrl` and `vodAdBlockEnabled` is passed in). -/
def mapEpisodesForPlayback (apiBaseUrl : String) (vodAdBlockEnabled : Bool)
    (episodeUrls : List String) (sourceKey : String) : List Episode :=
  episodeUrls.enum.map (fun p => mapOneEpisode apiBaseUrl vodAdBlockEnabled sourceKey p.1 p.2)

/-- `tryFallbackUrl(failedUrl)`: advance to the next URL candidate of the
current episode; `false` on a stale URL, missing episode, or exhaustion. -/
def tryFallbackUrl (s : PlayerState) (failedUrl : String) : PlayerState × Bool :=
  match epAt s.episodes s.currentEpisodeIndex with
  | none => (s, false)
  | some currentEpisode =>
    if failedUrl = "" || currentEpisode.url ≠ failedUrl then (s, false)
    else
      let nextCandidateIndex := currentEpisode.currentCandidateIndex + 1
      match currentEpisode.urlCandidates.get? nextCandidateIndex with
      | none => (s, false)
      | some nextCandidateUrl =>
        if nextCandidateUrl = "" then (s, false)
        else
          ({ s with
              episodes := s.episodes.set s.currentEpisodeIndex.toNat
                { currentEpisode with url := nextCandidateUrl,
                                      currentCandidateIndex := nextCandidateIndex }
              isLoading := false }, true)

/-- `prependCurrentEpisodeCandidate(candidateUrl, originalUrl)`. -/
def prependCurrentEpisodeCandidate (s : PlayerState) (candidateUrl : String)
    (originalUrl : Option String) : PlayerState × Bool :=
  if candidateUrl = "" then (s, false)
  else
    match epAt s.episodes s.currentEpisodeIndex with
    | none => (s, false)
    | some currentEpisode =>
      if strTruthy originalUrl ∧ currentEpisode.rawUrl ≠ "" ∧
          currentEpisode.rawUrl ≠ originalUrl.getD "" then (s, false)
      else if currentEpisode.urlCandidates.head? = some candidateUrl ∧
          currentEpisode.url = candidateUrl then (s, false)
      else
        let nextCandidates :=
          candidateUrl :: currentEpisode.urlCandidates.filter (fun u => u ≠ candidateUrl)
        ({ s with
            episodes := s.episodes.set s.currentEpisodeIndex.toNat
              { currentEpisode with url := candidateUrl,
                                    urlCandidates := nextCandidates,
                                    currentCandidateIndex := 0 }
            isLoading := false }, true)

/-! ## The video `onError` handler (`useVideoHandlers`) -/

/-- What the `onError` callback does (beyond player-store mutation via
`tryFallbackUrl`; the cross-source `handleVideoError` path lives in the
detail-store collaborator and is represented by its classified action). -/
inductive ErrorAction where
  /-- `!currentEpisode?.url` — early return. -/
  | noUrl
  /-- identity mismatch with the active episode — stale, discarded. -/
  | staleIgnored
  /-- same-episode candidate advance succeeded. -/
  | switchedBackup
  /-- cross-source fallback, with the classified kind (`ssl`/`network`/`other`). -/
  | sourceSwitch (kind : String)
  deriving DecidableEq

/-- Error classification in `onError`. -/
def classifyError (errorString : String) : String :=
  if jsIncludes errorString "SSLHandshakeException" ||
     jsIncludes errorString "CertPathValidatorException" ||
     jsIncludes errorString "Trust anchor for certification path not found" then "ssl"
  else if jsIncludes errorString "HttpDataSourceException" ||
          jsIncludes errorString "IOException" ||
          jsIncludes errorString "SocketTimeoutException" then "network"
  else "other"

/-- The `onError` callback: staleness check against the active episode, then
candidate fallback, then cross-source switching. -/
def onError (s : PlayerState) (callbackEpisodeUrl : String) (errorString : String) :
    PlayerState × ErrorAction :=
  if callbackEpisodeUrl = "" then (s, ErrorAction.noUrl)
  else
    let activeEpisode := epAt s.episodes s.currentEpisodeIndex
    if activeEpisode.map Episode.url ≠ some callbackEpisodeUrl then (s, ErrorAction.staleIgnored)
    else
      let r := tryFallbackUrl s callbackEpisodeUrl
      if r.2 then (r.1, ErrorAction.switchedBackup)
      else (s, ErrorAction.sourceSwitch (classifyError errorString))

/-! ## Live player fallback controller (`LivePlayer`)

React state and refs become one record; the `setTimeout` callback and the
status/error handlers become transition functions.  The timeout callback in the
source calls `setHasSwitchedToFallback(true)`, an identifier that is defined
nowhere in the component: at runtime this raises a `ReferenceError` after
`hasSwitchedRef.current = true` and before `setActiveStreamUrl(...)`.  The
raise is modelled as `Except.error` carrying the state at the throw point. -/

structure LiveState where
  isLoading : Bool
  isTimeout : Bool
  activeStreamUrl : Option String
  statusMessage : Option String
  hasSwitched : Bool
  fallbackUrl : Option String
  timerArmed : Bool
  deriving DecidableEq

/-- The `useEffect` on a (possibly changed) `streamUrl`: reset refs, arm the
15 s timer when a URL is present. -/
def receiveStream (streamUrl fallbackStreamUrl : Option String) : LiveState :=
  if strTruthy streamUrl then
    { isLoading := true, isTimeout := false, activeStreamUrl := streamUrl,
      statusMessage := none, hasSwitched := false, fallbackUrl := fallbackStreamUrl,
      timerArmed := true }
  else
    { isLoading := false, isTimeout := false, activeStreamUrl := none,
      statusMessage := none, hasSwitched := false, fallbackUrl := none,
      timerArmed := false }

/-- The 15 s `setTimeout` callback.  On the switch path the source mutates
`hasSwitchedRef`, then hits the undefined `setHasSwitchedToFallback` and
throws; the remaining statements (stream switch, timer restart) never run. -/
def timerFire (s : LiveState) : Except LiveState LiveState :=
  let s0 := { s with timerArmed := false }
  if ¬s0.hasSwitched ∧ strTruthy s0.fallbackUrl then
    Except.error { s0 with hasSwitched := true }
  else
    Except.ok { s0 with isTimeout := true, isLoading := false, statusMessage := none }

/-- `switchToFallback` (the error-event path): switch once to the fallback URL
and restart the timer; `false` when already switched or no fallback exists. -/
def switchToFallback (s : LiveState) : LiveState × Bool :=
  if ¬s.hasSwitched ∧ strTruthy s.fallbackUrl then
    ({ s with hasSwitched := true, activeStreamUrl := s.fallbackUrl,
              statusMessage := some "去广告线路失败，已切换直连...",
              isLoading := true, isTimeout := false, timerArmed := true }, true)
  else (s, false)

structure AvStatus where
  isLoaded : Bool
  isPlaying : Bool
  isBuffering : Bool
  error : Option String

/-- `handlePlaybackStatusUpdate` of the live player. -/
def liveHandleStatus (s : LiveState) (st : AvStatus) : LiveState :=
  if st.isLoaded then
    if st.isPlaying then
      { s with timerArmed := false, isLoading := false, isTimeout := false,
               statusMessage := if s.hasSwitched then some "当前为直连线路" else none }
    else if st.isBuffering then { s with isLoading := true }
    else s
  else if strTruthy st.error then
    let r := switchToFallback s
    if r.2 then r.1
    else { s with isLoading := false, isTimeout := true, statusMessage := none,
                  timerArmed := false }
  else s

/-- The playable-unit invariant of the spec's data model: the candidate index
is in range and the active `url` is the candidate it points at (the `0 ≤`
half is carried by the `Nat` index). -/
def EpInv (ep : Episode) : Prop :=
  ep.currentCandidateIndex < ep.urlCandidates.length ∧
  ep.urlCandidates.get? ep.currentCandidateIndex = some ep.url

instance (ep : Episode) : Decidable (EpInv ep) := by
  unfold EpInv
  infer_instance

/-- Shape of every line emitted by `filterAndNormalizeMediaPlaylist`:
non-empty, fixed under `trim()`, and free of newline characters. -/
def NormLine (l : String) : Prop :=
  l ≠ "" ∧ jsTrim l = l ∧ ∀ c ∈ l.data, c ≠ '\n'

/-! ## Support lemmas -/

theorem mem_dedupSeen_iff {a : String} :
    ∀ {l seen : List String}, a ∈ dedupSeen seen l ↔ a ∈ l ∧ a ∉ seen := by
  intro l
  induction l with
  | nil => simp [dedupSeen]
  | cons x xs ih =>
    intro seen
    by_cases hx : x ∈ seen
    · rw [dedupSeen, if_pos hx, ih]
      constructor
      · rintro ⟨h1, h2⟩
        exact ⟨List.mem_cons_of_mem _ h1, h2⟩
      · rintro ⟨h1, h2⟩
        rcases List.mem_cons.mp h1 with rfl | h1
        · exact absurd hx h2
        · exact ⟨h1, h2⟩
    · rw [dedupSeen, if_neg hx]
      constructor
      · intro h
        rcases List.mem_cons.mp h with rfl | h
        · exact ⟨List.mem_cons_self _ _, hx⟩
        · rcases ih.mp h with ⟨h1, h2⟩
          refine ⟨List.mem_cons_of_mem _ h1, fun hs => h2 (List.mem_cons_of_mem _ hs)⟩
      · rintro ⟨h1, h2⟩
        rcases List.mem_cons.mp h1 with rfl | h1
        · exact List.mem_cons_self _ _
        · by_cases hax : a = x
          · exact hax ▸ List.mem_cons_self _ _
          · exact List.mem_cons_of_mem _ (ih.mpr ⟨h1, by simp [hax, h2]⟩)

theorem nodup_dedupSeen : ∀ (l seen : List String), (dedupSeen seen l).Nodup := by
  intro l
  induction l with
  | nil => intro seen; simp [dedupSeen]
  | cons x xs ih =>
    intro seen
    by_cases hx : x ∈ seen
    · rw [dedupSeen, if_pos hx]; exact ih seen
    · rw [dedupSeen, if_neg hx]
      refine List.nodup_cons.mpr ⟨?_, ih (x :: seen)⟩
      intro hmem
      exact (mem_dedupSeen_iff.mp hmem).2 (List.mem_cons_self _ _)

theorem dedupSeen_eq_self : ∀ (l seen : List String), l.Nodup → (∀ a ∈ l, a ∉ seen) →
    dedupSeen seen l = l := by
  intro l
  induction l with
  | nil => intro seen _ _; rfl
  | cons x xs ih =>
    intro seen hnd hout
    rcases List.nodup_cons.mp hnd with ⟨hx, hxs⟩
    rw [dedupSeen, if_neg (hout x (List.mem_cons_self _ _))]
    congr 1
    apply ih _ hxs
    intro a ha
    simp only [List.mem_cons]
    rintro (rfl | hseen)
    · exact hx ha
    · exact hout a (List.mem_cons_of_mem _ ha) hseen

theorem mem_dedupKeepFirst_iff {a : String} {l : List String} :
    a ∈ dedupKeepFirst l ↔ a ∈ l := by
  rw [dedupKeepFirst, mem_dedupSeen_iff]
  simp

theorem mem_of_mem_dedupKeepFirst {a : String} {l : List String}
    (h : a ∈ dedupKeepFirst l) : a ∈ l := mem_dedupKeepFirst_iff.mp h

theorem nodup_dedupKeepFirst (l : List String) : (dedupKeepFirst l).Nodup :=
  nodup_dedupSeen l []

theorem dedupKeepFirst_eq_self {l : List String} (h : l.Nodup) : dedupKeepFirst l = l :=
  dedupSeen_eq_self l [] h (by simp)

theorem dedupKeepFirst_nil_iff (l : List String) : dedupKeepFirst l = [] ↔ l = [] := by
  constructor
  · intro h
    cases hl : l with
    | nil => rfl
    | cons x xs =>
      have : x ∈ dedupKeepFirst l := mem_dedupKeepFirst_iff.mpr (by simp [hl])
      rw [h] at this
      simp at this
  · intro h
    simp [h, dedupKeepFirst, dedupSeen]

/-! ## Claim C3 — same-episode candidate advance -/

/-- C3 (counterexample): a state satisfying the claim's shape
(`urlCandidates = [a, b, c]`, index 0, active url `a`) on which
`tryFallbackUrl a` does NOT advance and returns `false`, because the second
candidate is the empty string, which the JS falsy check `!nextCandidateUrl`
rejects.  The claim as stated, universal in `a`, `b`, `c`, is therefore
false. -/
theorem C3_counterexample :
    tryFallbackUrl ⟨[⟨"x", "x", "t", ["x", "", "z"], 0⟩], 0, true⟩ "x" =
      (⟨[⟨"x", "x", "t", ["x", "", "z"], 0⟩], 0, true⟩, false) := by
  decide

/-- C3 (amended: the failing candidate `a` and its successor `b` must be
non-empty strings): with `urlCandidates = [a, b, c]` and index 0, a failure on
the active url `a` advances the episode to candidate `b` at index 1 and
returns `true`; with index 2 (the failing URL being the last candidate `c`)
it returns `false` and leaves the state unchanged — the successor lookup is an
option-valued access, never out of range. -/
theorem C3_candidate_advance :
    (∀ (s : PlayerState) (ep : Episode) (a b c : String),
      epAt s.episodes s.currentEpisodeIndex = some ep →
      ep.urlCandidates = [a, b, c] → ep.currentCandidateIndex = 0 → ep.url = a →
      a ≠ "" → b ≠ "" →
      tryFallbackUrl s a =
        ({ s with
            episodes := s.episodes.set s.currentEpisodeIndex.toNat
              { ep with url := b, currentCandidateIndex := 1 }
            isLoading := false }, true)) ∧
    (∀ (s : PlayerState) (ep : Episode) (a b c : String),
      epAt s.episodes s.currentEpisodeIndex = some ep →
      ep.urlCandidates = [a, b, c] → ep.currentCandidateIndex = 2 → ep.url = c →
      tryFallbackUrl s c = (s, false)) := by
  constructor
  · intro s ep a b c hep hcand hidx hurl ha hb
    simp only [tryFallbackUrl, hep, hurl, hidx, hcand, ha]
    simp [hb]
  · intro s ep a b c hep hcand hidx hurl
    by_cases hc : c = ""
    · simp [tryFallbackUrl, hep, hc]
    · simp only [tryFallbackUrl, hep, hurl, hidx, hcand, hc]
      simp

/-- C3 witness: both halves of the amended claim applied to a concrete
three-candidate state. -/
theorem C3_candidate_advance_witness :
    tryFallbackUrl ⟨[⟨"a", "a", "t", ["a", "b", "c"], 0⟩], 0, true⟩ "a" =
      (⟨[⟨"b", "a", "t", ["a", "b", "c"], 1⟩], 0, false⟩, true) ∧
    tryFallbackUrl ⟨[⟨"c", "a", "t", ["a", "b", "c"], 2⟩], 0, true⟩ "c" =
      (⟨[⟨"c", "a", "t", ["a", "b", "c"], 2⟩], 0, true⟩, false) := by
  constructor
  · have h := C3_candidate_advance.1 ⟨[⟨"a", "a", "t", ["a", "b", "c"], 0⟩], 0, true⟩
      ⟨"a", "a", "t", ["a", "b", "c"], 0⟩ "a" "b" "c"
      (by decide) (by decide) (by decide) (by decide) (by decide) (by decide)
    exact h
  · have h := C3_candidate_advance.2 ⟨[⟨"c", "a", "t", ["a", "b", "c"], 2⟩], 0, true⟩
      ⟨"c", "a", "t", ["a", "b", "c"], 2⟩ "a" "b" "c"
      (by decide) (by decide) (by decide) (by decide)
    exact h

/-! ## Claim C4 — stale error events are discarded without state change -/

/-- C4: when the failing URL is not the active episode's url (or there is no
active episode), `tryFallbackUrl` returns `false` with the state unchanged,
and `onError` returns on its guard (missing url) or its staleness check,
before any candidate fallback or source switch. -/
theorem C4_stale_event_no_change :
    ∀ (s : PlayerState) (url errorString : String),
      (∀ ep, epAt s.episodes s.currentEpisodeIndex = some ep → ep.url ≠ url) →
      tryFallbackUrl s url = (s, false) ∧
      (onError s url errorString).1 = s ∧
      ((onError s url errorString).2 = ErrorAction.noUrl ∨
       (onError s url errorString).2 = ErrorAction.staleIgnored) := by
  intro s url errorString hstale
  have htry : tryFallbackUrl s url = (s, false) := by
    unfold tryFallbackUrl
    cases hep : epAt s.episodes s.currentEpisodeIndex with
    | none => simp
    | some ep =>
      have := hstale ep hep
      simp [this]
  refine ⟨htry, ?_, ?_⟩
  · unfold onError
    by_cases hurl : url = ""
    · simp [hurl]
    · cases hep : epAt s.episodes s.currentEpisodeIndex with
      | none => simp [hurl, hep]
      | some ep =>
        have := hstale ep hep
        simp [hurl, hep, this]
  · unfold onError
    by_cases hurl : url = ""
    · simp [hurl]
    · cases hep : epAt s.episodes s.currentEpisodeIndex with
      | none => simp [hurl, hep]
      | some ep =>
        have := hstale ep hep
        simp [hurl, hep, this]

/-- C4 witness: a stale callback URL `"b"` against an active episode playing
`"a"`. -/
theorem C4_stale_event_no_change_witness :
    tryFallbackUrl ⟨[⟨"a", "a", "t", ["a"], 0⟩], 0, false⟩ "b" =
      (⟨[⟨"a", "a", "t", ["a"], 0⟩], 0, false⟩, false) ∧
    (onError ⟨[⟨"a", "a", "t", ["a"], 0⟩], 0, false⟩ "b" "err").1 =
      ⟨[⟨"a", "a", "t", ["a"], 0⟩], 0, false⟩ ∧
    ((onError ⟨[⟨"a", "a", "t", ["a"], 0⟩], 0, false⟩ "b" "err").2 = ErrorAction.noUrl ∨
     (onError ⟨[⟨"a", "a", "t", ["a"], 0⟩], 0, false⟩ "b" "err").2 = ErrorAction.staleIgnored) :=
  C4_stale_event_no_change ⟨[⟨"a", "a", "t", ["a"], 0⟩], 0, false⟩ "b" "err"
    (by intro ep h; simp [epAt] at h; subst h; decide)

/-! ## Claim C6 — one-shot candidate injection -/

/-- C6 (counterexample): an episode whose ACTIVE url equals the computed
candidate (`url = "c"`) but whose candidate-list head does not
(`urlCandidates = ["a", "c"]`, index 1).  The claim requires the call to
return `false` and leave the list unchanged; the code prepends and returns
`true`, because its bail-out needs the candidate to be both the head of the
list and the active url. -/
theorem C6_counterexample :
    prependCurrentEpisodeCandidate ⟨[⟨"c", "r", "t", ["a", "c"], 1⟩], 0, true⟩ "c" (some "r") =
      (⟨[⟨"c", "r", "t", ["c", "a"], 0⟩], 0, false⟩, true) := by
  decide

/-- C6 (amended: the already-active bail-out requires the candidate to be the
head of the candidate list AND the active url): `prependCurrentEpisodeCandidate`
returns `false` leaving the state unchanged when the episode identity `rawUrl`
(when both it and `originalUrl` are non-empty) differs from `originalUrl`, or
when the candidate is already both list head and active url; otherwise it
prepends the candidate (dropping other occurrences of it), sets the active url
to it, resets the index to 0 and returns `true`. -/
theorem C6_prepend_injection :
    (∀ (s : PlayerState) (ep : Episode) (c ou : String),
      epAt s.episodes s.currentEpisodeIndex = some ep →
      ou ≠ "" → ep.rawUrl ≠ "" → ep.rawUrl ≠ ou →
      prependCurrentEpisodeCandidate s c (some ou) = (s, false)) ∧
    (∀ (s : PlayerState) (ep : Episode) (c : String) (ou : Option String),
      epAt s.episodes s.currentEpisodeIndex = some ep →
      ep.urlCandidates.head? = some c → ep.url = c →
      prependCurrentEpisodeCandidate s c ou = (s, false)) ∧
    (∀ (s : PlayerState) (ep : Episode) (c : String) (ou : Option String),
      epAt s.episodes s.currentEpisodeIndex = some ep → c ≠ "" →
      ¬(strTruthy ou = true ∧ ep.rawUrl ≠ "" ∧ ep.rawUrl ≠ ou.getD "") →
      ¬(ep.urlCandidates.head? = some c ∧ ep.url = c) →
      prependCurrentEpisodeCandidate s c ou =
        ({ s with
            episodes := s.episodes.set s.currentEpisodeIndex.toNat
              { ep with url := c,
                        urlCandidates := c :: ep.urlCandidates.filter (fun u => u ≠ c),
                        currentCandidateIndex := 0 }
            isLoading := false }, true)) := by
  refine ⟨?_, ?_, ?_⟩
  · intro s ep c ou hep hou hraw hne
    by_cases hc : c = ""
    · simp [prependCurrentEpisodeCandidate, hc]
    · simp [prependCurrentEpisodeCandidate, hc, hep, strTruthy, hou, hraw, hne]
  · intro s ep c ou hep hhead hurl
    by_cases hc : c = ""
    · simp [prependCurrentEpisodeCandidate, hc]
    · simp only [prependCurrentEpisodeCandidate, hc, hep]
      by_cases hid : strTruthy ou = true ∧ ep.rawUrl ≠ "" ∧ ep.rawUrl ≠ ou.getD ""
      · simp [hid]
      · simp [hid, hhead, hurl]
  · intro s ep c ou hep hc hid hactive
    simp only [prependCurrentEpisodeCandidate, hep, if_neg hc]
    simp [hid, hactive]

/-- C6 witness: all three branches of the amended claim at concrete states —
a stale identity, an already-injected head candidate, and a successful
injection. -/
theorem C6_prepend_injection_witness :
    prependCurrentEpisodeCandidate ⟨[⟨"a", "r", "t", ["a"], 0⟩], 0, true⟩ "f" (some "other") =
      (⟨[⟨"a", "r", "t", ["a"], 0⟩], 0, true⟩, false) ∧
    prependCurrentEpisodeCandidate ⟨[⟨"f", "r", "t", ["f", "a"], 0⟩], 0, true⟩ "f" (some "r") =
      (⟨[⟨"f", "r", "t", ["f", "a"], 0⟩], 0, true⟩, false) ∧
    prependCurrentEpisodeCandidate ⟨[⟨"a", "r", "t", ["a"], 0⟩], 0, true⟩ "f" (some "r") =
      (⟨[⟨"f", "r", "t", ["f", "a"], 0⟩], 0, false⟩, true) := by
  refine ⟨?_, ?_, ?_⟩
  · exact C6_prepend_injection.1 ⟨[⟨"a", "r", "t", ["a"], 0⟩], 0, true⟩
      ⟨"a", "r", "t", ["a"], 0⟩ "f" "other" (by decide) (by decide) (by decide) (by decide)
  · exact C6_prepend_injection.2.1 ⟨[⟨"f", "r", "t", ["f", "a"], 0⟩], 0, true⟩
      ⟨"f", "r", "t", ["f", "a"], 0⟩ "f" (some "r") (by decide) (by decide) (by decide)
  · have h := C6_prepend_injection.2.2 ⟨[⟨"a", "r", "t", ["a"], 0⟩], 0, true⟩
      ⟨"a", "r", "t", ["a"], 0⟩ "f" (some "r") (by decide) (by decide) (by decide) (by decide)
    exact h

/-! ## Claim C7 — the candidate invariant is established and preserved -/

/-- C7 (counterexample): `mapEpisodesForPlayback` applied to an empty raw URL
produces a unit with an EMPTY candidate list and index 0, violating the
invariant `currentCandidateIndex < len(urlCandidates)` — the JS
`.filter(Boolean)` removes the empty raw URL from its own candidate list. -/
theorem C7_counterexample :
    mapEpisodesForPlayback "" false [""] "k" = [⟨"", "", "Episode 1", [], 0⟩] ∧
    ¬EpInv ⟨"", "", "Episode 1", [], 0⟩ := by
  constructor
  · decide
  · decide

/-- C7 (amended: the episode raw URLs must be non-empty strings): every unit
built by `mapEpisodesForPlayback` from non-empty raw URLs satisfies the
candidate invariant, and `tryFallbackUrl` and `prependCurrentEpisodeCandidate`
both preserve it across the whole episode list. -/
theorem mapOneEpisode_inv (apiBaseUrl : String) (adb : Bool) (key : String) (i : Nat)
    {u : String} (hu : u ≠ "") : EpInv (mapOneEpisode apiBaseUrl adb key i u) := by
  simp only [mapOneEpisode, EpInv]
  set cand := getPlaybackUrlCandidates (some u) apiBaseUrl key adb none with hcand
  set flt := ((if cand ≠ [] then cand else []) ++ [u]).filter (fun x => x ≠ "") with hflt
  have humem : u ∈ dedupKeepFirst flt := by
    apply mem_dedupKeepFirst_iff.mpr
    rw [hflt]
    exact List.mem_filter.mpr ⟨by simp, by simpa using hu⟩
  cases hdk : dedupKeepFirst flt with
  | nil => rw [hdk] at humem; simp at humem
  | cons h0 rest =>
    have h0ne : h0 ≠ "" := by
      have h0mem : h0 ∈ flt := mem_of_mem_dedupKeepFirst (by rw [hdk]; simp)
      have := List.of_mem_filter h0mem
      simpa using this
    simp [h0ne]

theorem C7_candidate_invariant :
    (∀ (apiBaseUrl : String) (adb : Bool) (urls : List String) (key : String),
      (∀ u ∈ urls, u ≠ "") →
      ∀ ep ∈ mapEpisodesForPlayback apiBaseUrl adb urls key, EpInv ep) ∧
    (∀ (s : PlayerState) (url : String),
      (∀ e ∈ s.episodes, EpInv e) →
      ∀ ep ∈ (tryFallbackUrl s url).1.episodes, EpInv ep) ∧
    (∀ (s : PlayerState) (c : String) (ou : Option String),
      (∀ e ∈ s.episodes, EpInv e) →
      ∀ ep ∈ (prependCurrentEpisodeCandidate s c ou).1.episodes, EpInv ep) := by
  refine ⟨?_, ?_, ?_⟩
  · intro apiBaseUrl adb urls key hne ep hep
    simp only [mapEpisodesForPlayback, List.mem_map] at hep
    obtain ⟨⟨i, u⟩, hmem, rfl⟩ := hep
    have hu : u ∈ urls := by
      have h := List.mem_enum_iff_getElem?.mp hmem
      exact List.getElem?_mem h
    exact mapOneEpisode_inv apiBaseUrl adb key i (hne u hu)
  · intro s url hinv ep hep
    unfold tryFallbackUrl at hep
    dsimp only at hep
    split at hep
    · exact hinv ep hep
    · rename_i cur hcur
      split at hep
      · exact hinv ep hep
      · split at hep
        · exact hinv ep hep
        · rename_i nu hnu
          split at hep
          · exact hinv ep hep
          · rename_i hnuNe
            simp only at hep
            rcases List.mem_or_eq_of_mem_set hep with h | h
            · exact hinv ep h
            · subst h
              refine ⟨?_, by simpa using hnu⟩
              exact (List.get?_eq_some.mp hnu).1
  · intro s c ou hinv ep hep
    unfold prependCurrentEpisodeCandidate at hep
    dsimp only at hep
    split at hep
    · exact hinv ep hep
    · split at hep
      · exact hinv ep hep
      · rename_i cur hcur
        split at hep
        · exact hinv ep hep
        · split at hep
          · exact hinv ep hep
          · simp only at hep
            rcases List.mem_or_eq_of_mem_set hep with h | h
            · exact hinv ep h
            · subst h
              exact ⟨by simp, by simp⟩

/-- C7 witness: invariant established on a concrete mapped list and preserved
across a concrete fallback step and a concrete injection. -/
theorem C7_candidate_invariant_witness :
    (∀ ep ∈ mapEpisodesForPlayback "" false ["http://h/e1.m3u8"] "k", EpInv ep) ∧
    (∀ ep ∈ (tryFallbackUrl ⟨[⟨"a", "a", "t", ["a", "b"], 0⟩], 0, true⟩ "a").1.episodes, EpInv ep) ∧
    (∀ ep ∈ (prependCurrentEpisodeCandidate ⟨[⟨"a", "a", "t", ["a"], 0⟩], 0, true⟩ "f"
        (some "a")).1.episodes, EpInv ep) := by
  refine ⟨?_, ?_, ?_⟩
  · exact C7_candidate_invariant.1 "" false ["http://h/e1.m3u8"] "k" (by decide)
  · exact C7_candidate_invariant.2.1 ⟨[⟨"a", "a", "t", ["a", "b"], 0⟩], 0, true⟩ "a"
      (by decide)
  · exact C7_candidate_invariant.2.2 ⟨[⟨"a", "a", "t", ["a"], 0⟩], 0, true⟩ "f" (some "a")
      (by decide)

/-! ## Claim C1 — candidate list order, uniqueness, dedup -/

theorem utf8Bytes_ne_nil (n : Nat) : utf8Bytes n ≠ [] := by
  unfold utf8Bytes
  split
  · simp
  · split
    · simp
    · split <;> simp

theorem one_le_length_encChar (c : Char) : 1 ≤ (encChar c).length := by
  unfold encChar
  split
  · simp
  · cases hb : utf8Bytes c.toNat with
    | nil => exact absurd hb (utf8Bytes_ne_nil _)
    | cons b rest => simp [pctByte]

theorem length_le_flatMap_encChar (l : List Char) : l.length ≤ (l.flatMap encChar).length := by
  induction l with
  | nil => simp
  | cons c t ih =>
    rw [List.flatMap_cons, List.length_append, List.length_cons]
    have := one_le_length_encChar c
    omega

theorem length_le_encodeURIComponent (s : String) : s.length ≤ (encodeURIComponent s).length :=
  length_le_flatMap_encChar s.data

theorem length_modernProxyUrl (url b k : String) (t : Option String) :
    url.length + 20 ≤ (modernProxyUrl url b k t).length := by
  unfold modernProxyUrl
  simp only [String.length_append]
  have h1 := length_le_encodeURIComponent url
  have h2 : ("/api/proxy-m3u8?url=" : String).length = 20 := rfl
  omega

theorem length_legacyProxyUrl (url b k : String) :
    url.length + 20 ≤ (legacyProxyUrl url b k).length := by
  unfold legacyProxyUrl
  simp only [String.length_append]
  have h1 := length_le_encodeURIComponent url
  have h2 : ("/api/proxy/m3u8?url=" : String).length = 20 := rfl
  omega

theorem ne_modernProxyUrl (url b k : String) (t : Option String) :
    url ≠ modernProxyUrl url b k t := by
  intro h
  have := length_modernProxyUrl url b k t
  rw [← h] at this
  omega

theorem ne_legacyProxyUrl (url b k : String) : url ≠ legacyProxyUrl url b k := by
  intro h
  have := length_legacyProxyUrl url b k
  rw [← h] at this
  omega

theorem modernProxyUrl_ne_empty (url b k : String) (t : Option String) :
    modernProxyUrl url b k t ≠ "" := by
  intro h
  have := length_modernProxyUrl url b k t
  rw [h] at this
  simp at this

theorem legacyProxyUrl_ne_empty (url b k : String) : legacyProxyUrl url b k ≠ "" := by
  intro h
  have := length_legacyProxyUrl url b k
  rw [h] at this
  simp at this

theorem modern_ne_legacy (url b k : String) (t : Option String) :
    modernProxyUrl url b k t ≠ legacyProxyUrl url b k := by
  intro h
  have hd := congrArg String.data h
  simp only [modernProxyUrl, legacyProxyUrl, String.data_append] at hd
  simp only [List.append_assoc] at hd
  have hd2 := List.append_cancel_left hd
  simp at hd2

/-- Under the qualifying conditions, the ad-filtered candidates are exactly
`[modern, legacy]`. -/
theorem getAdFiltered_eq (url b k : String) (t : Option String)
    (hu : url ≠ "") (hb : b ≠ "") (hk : k ≠ "")
    (hq : isHttpLiveUrl url && isM3u8LiveUrl url) :
    getAdFilteredM3u8Candidates (some url) b k t =
      [modernProxyUrl url b k t, legacyProxyUrl url b k] := by
  unfold getAdFilteredM3u8Candidates
  have hst : strTruthy (some url) = true := by simpa [strTruthy] using hu
  rw [if_neg (by simp [hst, hb, hk])]
  simp only [Option.getD_some]
  rw [if_neg (by simp_all)]
  exact dedupKeepFirst_eq_self (by simp [List.nodup_cons, modern_ne_legacy url b k t])

/-- C1 (counterexample): for the empty raw URL the function returns `[]` —
the raw URL appears zero times, not exactly once, because `originalUrl ?
[originalUrl] : []` treats `""` as falsy. -/
theorem C1_counterexample :
    getPlaybackUrlCandidates (some "") "http://api" "k" false none = [] ∧
    (getPlaybackUrlCandidates (some "") "http://api" "k" false none).count "" ≠ 1 := by
  decide

/-- C1 (amended: the raw URL must be non-empty): the result has no duplicates,
contains the raw URL exactly once, and is exactly `[legacy, modern, raw]` when
ad-block is enabled and the proxies qualify, `[raw, legacy, modern]` when
disabled, and `[raw]` when no proxy qualifies — the legacy-path proxy ahead of
the modern one, first occurrences preserved. -/
theorem C1_candidate_order :
    ∀ (url apiBaseUrl sourceKey : String) (adBlockEnabled : Bool) (proxyToken : Option String),
      url ≠ "" →
      (getPlaybackUrlCandidates (some url) apiBaseUrl sourceKey adBlockEnabled proxyToken).Nodup ∧
      (getPlaybackUrlCandidates (some url) apiBaseUrl sourceKey adBlockEnabled proxyToken).count url
        = 1 ∧
      getPlaybackUrlCandidates (some url) apiBaseUrl sourceKey adBlockEnabled proxyToken =
        (if apiBaseUrl ≠ "" ∧ sourceKey ≠ "" ∧ (isHttpLiveUrl url && isM3u8LiveUrl url) = true then
          (if adBlockEnabled then
            [legacyProxyUrl url apiBaseUrl sourceKey,
             modernProxyUrl url apiBaseUrl sourceKey proxyToken, url]
          else
            [url, legacyProxyUrl url apiBaseUrl sourceKey,
             modernProxyUrl url apiBaseUrl sourceKey proxyToken])
        else [url]) := by
  intro url b k adb t hu
  have hst : strTruthy (some url) = true := by simpa [strTruthy] using hu
  by_cases hq : b ≠ "" ∧ k ≠ "" ∧ (isHttpLiveUrl url && isM3u8LiveUrl url) = true
  · obtain ⟨hb, hk, hurl⟩ := hq
    have had := getAdFiltered_eq url b k t hu hb hk hurl
    have hm := modernProxyUrl_ne_empty url b k t
    have hl := legacyProxyUrl_ne_empty url b k
    have hnd : (if adb then
        [legacyProxyUrl url b k, modernProxyUrl url b k t, url]
      else [url, legacyProxyUrl url b k, modernProxyUrl url b k t]).Nodup := by
      have h1 := modern_ne_legacy url b k t
      have h2 := ne_modernProxyUrl url b k t
      have h3 := ne_legacyProxyUrl url b k
      have h1s := Ne.symm h1
      have h2s := Ne.symm h2
      have h3s := Ne.symm h3
      cases adb
      · simp [List.nodup_cons, h2, h3, h1s]
      · simp [List.nodup_cons, h2s, h3s, h1s, h1]
    have heq : getPlaybackUrlCandidates (some url) b k adb t =
        (if adb then [legacyProxyUrl url b k, modernProxyUrl url b k t, url]
         else [url, legacyProxyUrl url b k, modernProxyUrl url b k t]) := by
      unfold getPlaybackUrlCandidates
      rw [had]
      simp only [hst, if_true, Option.getD_some]
      cases adb
      · simp only [Bool.false_eq_true, if_false]
        rw [show (([url] : List String) ++ [legacyProxyUrl url b k, modernProxyUrl url b k t]).filter
            (fun u => u ≠ "") = [url, legacyProxyUrl url b k, modernProxyUrl url b k t] by
          simp [hu, hl, hm]]
        exact dedupKeepFirst_eq_self (by simpa using hnd)
      · simp only [if_true]
        rw [show (([legacyProxyUrl url b k, modernProxyUrl url b k t] : List String) ++ [url]).filter
            (fun u => u ≠ "") = [legacyProxyUrl url b k, modernProxyUrl url b k t, url] by
          simp [hu, hl, hm]]
        exact dedupKeepFirst_eq_self (by simpa using hnd)
    refine ⟨?_, ?_, ?_⟩
    · rw [heq]; exact hnd
    · rw [heq]
      apply List.count_eq_one_of_mem hnd
      cases adb <;> simp
    · have hcond : b ≠ "" ∧ k ≠ "" ∧ (isHttpLiveUrl url && isM3u8LiveUrl url) = true :=
        ⟨hb, hk, hurl⟩
      rw [heq, if_pos hcond]
  · have had : getAdFilteredM3u8Candidates (some url) b k t = [] := by
      unfold getAdFilteredM3u8Candidates
      by_cases hb : b = ""
      · rw [if_pos (by simp [hb])]
      · by_cases hk : k = ""
        · rw [if_pos (by simp [hk])]
        · have hq2 : ¬(isHttpLiveUrl url && isM3u8LiveUrl url) = true := by
            intro hc
            exact hq ⟨hb, hk, hc⟩
          rw [if_neg (by simp [hst, hb, hk])]
          simp only [Option.getD_some]
          rw [if_pos (by simpa using hq2)]
    have heq : getPlaybackUrlCandidates (some url) b k adb t = [url] := by
      unfold getPlaybackUrlCandidates
      rw [had]
      simp only [hst, if_pos rfl]
      cases adb <;> simp [hu, dedupKeepFirst, dedupSeen]
    refine ⟨by rw [heq]; simp, by rw [heq]; simp, by rw [heq, if_neg hq]⟩

/-- C1 witness: the amended claim at a concrete qualifying URL with ad-block
both enabled and disabled. -/
theorem C1_candidate_order_witness :
    ((getPlaybackUrlCandidates (some "http://cdn/a.m3u8") "http://api/" "src" true none).Nodup ∧
     (getPlaybackUrlCandidates (some "http://cdn/a.m3u8") "http://api/" "src" true none).count
        "http://cdn/a.m3u8" = 1 ∧
     getPlaybackUrlCandidates (some "http://cdn/a.m3u8") "http://api/" "src" true none =
       (if "http://api/" ≠ "" ∧ "src" ≠ "" ∧
            (isHttpLiveUrl "http://cdn/a.m3u8" && isM3u8LiveUrl "http://cdn/a.m3u8") = true then
         (if true then
           [legacyProxyUrl "http://cdn/a.m3u8" "http://api/" "src",
            modernProxyUrl "http://cdn/a.m3u8" "http://api/" "src" none, "http://cdn/a.m3u8"]
         else
           ["http://cdn/a.m3u8", legacyProxyUrl "http://cdn/a.m3u8" "http://api/" "src",
            modernProxyUrl "http://cdn/a.m3u8" "http://api/" "src" none])
       else ["http://cdn/a.m3u8"])) ∧
    getPlaybackUrlCandidates (some "http://cdn/a.m3u8") "http://api/" "src" false none =
      ["http://cdn/a.m3u8", legacyProxyUrl "http://cdn/a.m3u8" "http://api/" "src",
       modernProxyUrl "http://cdn/a.m3u8" "http://api/" "src" none] := by
  constructor
  · exact C1_candidate_order "http://cdn/a.m3u8" "http://api/" "src" true none (by decide)
  · have h := (C1_candidate_order "http://cdn/a.m3u8" "http://api/" "src" false none
      (by decide)).2.2
    rw [h]
    decide

/-! ## Claim C5 — live player timeout fallback -/

/-- C5 (code bug): with primary `X` and fallback `Y` armed, the 15-second
timeout callback raises (modelled `Except.error`) at the call to the undefined
identifier `setHasSwitchedToFallback`, AFTER marking the switch flag but
BEFORE switching the active stream to `Y` or restarting the timer — the
active stream is still `X` in the thrown state.  The claim's intended
behaviour is exactly what the error-path `switchToFallback` implements: it
switches once to `Y` rearming the timer, refuses a second switch, and a
playing status disarms the timer. -/
theorem C5_timeout_switch_throws :
    timerFire (receiveStream (some "http://x/live.m3u8") (some "http://y/live.m3u8")) =
      Except.error { isLoading := true, isTimeout := false,
                     activeStreamUrl := some "http://x/live.m3u8",
                     statusMessage := none, hasSwitched := true,
                     fallbackUrl := some "http://y/live.m3u8", timerArmed := false } ∧
    (switchToFallback (receiveStream (some "http://x/live.m3u8")
        (some "http://y/live.m3u8"))).2 = true ∧
    (switchToFallback (receiveStream (some "http://x/live.m3u8")
        (some "http://y/live.m3u8"))).1.activeStreamUrl = some "http://y/live.m3u8" ∧
    (switchToFallback (receiveStream (some "http://x/live.m3u8")
        (some "http://y/live.m3u8"))).1.timerArmed = true ∧
    (switchToFallback ((switchToFallback (receiveStream (some "http://x/live.m3u8")
        (some "http://y/live.m3u8"))).1)).2 = false ∧
    (liveHandleStatus (receiveStream (some "http://x/live.m3u8") (some "http://y/live.m3u8"))
        ⟨true, true, false, none⟩).timerArmed = false := by
  refine ⟨by rfl, by decide, by decide, by decide, by decide, by decide⟩

/-! ## Character-level lemmas for the URL model -/

theorem char_toNat_lt (c : Char) : c.toNat < 1114112 := by
  rcases c.valid with h | ⟨h1, h2⟩
  · exact Nat.lt_trans h (by norm_num)
  · exact h2

theorem toNat_ofNat_valid {n : Nat} (h : n < 55296) : (Char.ofNat n).toNat = n := by
  unfold Char.ofNat
  rw [dif_pos (Or.inl h)]
  rfl

theorem hexDigitUpper_pct {m : Nat} (h : m ≤ 15) : pctOutChar (hexDigitUpper m) := by
  unfold hexDigitUpper pctOutChar
  split
  · rw [toNat_ofNat_valid (by omega)]
    omega
  · rw [toNat_ofNat_valid (by omega)]
    omega

theorem pctByte_chars {b : Nat} (hb : b ≤ 255) {c : Char} (hc : c ∈ pctByte b) :
    pctOutChar c := by
  unfold pctByte at hc
  rcases List.mem_cons.mp hc with rfl | hc
  · left; rfl
  · rcases List.mem_cons.mp hc with rfl | hc
    · exact hexDigitUpper_pct (by omega)
    · rcases List.mem_cons.mp hc with rfl | hc
      · exact hexDigitUpper_pct (Nat.le_of_lt_succ (Nat.lt_of_lt_of_le (Nat.mod_lt b (by omega))
          (by omega)))
      · simp at hc

theorem utf8Bytes_le {n : Nat} (hn : n < 1114112) {b : Nat} (hb : b ∈ utf8Bytes n) :
    b ≤ 255 := by
  unfold utf8Bytes at hb
  split at hb
  · rename_i h1
    simp at hb
    omega
  · split at hb
    · rename_i h1 h2
      have hd : n / 64 ≤ 2047 / 64 := Nat.div_le_div_right (by omega)
      have hm : n % 64 < 64 := Nat.mod_lt n (by omega)
      norm_num at hd
      rcases List.mem_cons.mp hb with rfl | hb
      · omega
      · simp at hb
        omega
    · split at hb
      · rename_i h1 h2 h3
        have hd : n / 4096 ≤ 65535 / 4096 := Nat.div_le_div_right (by omega)
        have hm1 : n / 64 % 64 < 64 := Nat.mod_lt _ (by omega)
        have hm : n % 64 < 64 := Nat.mod_lt n (by omega)
        norm_num at hd
        rcases List.mem_cons.mp hb with rfl | hb
        · omega
        · rcases List.mem_cons.mp hb with rfl | hb
          · omega
          · simp at hb
            omega
      · rename_i h1 h2 h3
        have hd : n / 262144 ≤ 1114111 / 262144 := Nat.div_le_div_right (by omega)
        have hm2 : n / 4096 % 64 < 64 := Nat.mod_lt _ (by omega)
        have hm1 : n / 64 % 64 < 64 := Nat.mod_lt _ (by omega)
        have hm : n % 64 < 64 := Nat.mod_lt n (by omega)
        norm_num at hd
        rcases List.mem_cons.mp hb with rfl | hb
        · omega
        · rcases List.mem_cons.mp hb with rfl | hb
          · omega
          · rcases List.mem_cons.mp hb with rfl | hb
            · omega
            · simp at hb
              omega

theorem pctOutChar_plain {c : Char} (h : pctOutChar c) : urlPlainChar c = true := by
  unfold urlPlainChar
  unfold pctOutChar at h
  simp only [Bool.and_eq_true, decide_eq_true_eq, bne_iff_ne, ne_eq]
  omega

theorem urlEncChar_chars {c c' : Char} (h : c' ∈ urlEncChar c) :
    (c' = c ∧ urlPlainChar c = true) ∨ pctOutChar c' := by
  unfold urlEncChar at h
  split at h
  · rename_i hp
    simp at h
    exact Or.inl ⟨h, hp⟩
  · right
    rcases List.mem_flatMap.mp h with ⟨b, hb, hc⟩
    exact pctByte_chars (utf8Bytes_le (char_toNat_lt c) hb) hc

theorem pe_chars {l : List Char} {c' : Char} (h : c' ∈ pe l) :
    (c' ∈ l ∧ urlPlainChar c' = true) ∨ pctOutChar c' := by
  unfold pe at h
  rcases List.mem_flatMap.mp h with ⟨c, hc, hcc⟩
  rcases urlEncChar_chars hcc with ⟨rfl, hp⟩ | hp
  · exact Or.inl ⟨hc, hp⟩
  · exact Or.inr hp

theorem pe_plain {l : List Char} {c' : Char} (h : c' ∈ pe l) : urlPlainChar c' = true := by
  rcases pe_chars h with ⟨_, hp⟩ | hp
  · exact hp
  · exact pctOutChar_plain hp

theorem urlEncChar_plain_eq {c : Char} (h : urlPlainChar c = true) : urlEncChar c = [c] := by
  unfold urlEncChar
  rw [if_pos h]

theorem pe_eq_self {l : List Char} (h : ∀ c ∈ l, urlPlainChar c = true) : pe l = l := by
  induction l with
  | nil => rfl
  | cons c t ih =>
    unfold pe at ih ⊢
    rw [List.flatMap_cons, urlEncChar_plain_eq (h c (by simp)), ih (fun x hx => h x (by simp [hx]))]
    rfl

theorem pe_idem (l : List Char) : pe (pe l) = pe l :=
  pe_eq_self (fun _ h => pe_plain h)

theorem urlEncChar_ne_nil (c : Char) : urlEncChar c ≠ [] := by
  unfold urlEncChar
  split
  · simp
  · cases hb : utf8Bytes c.toNat with
    | nil => exact absurd hb (utf8Bytes_ne_nil _)
    | cons b rest => simp [pctByte]

theorem pe_cons (c : Char) (t : List Char) : pe (c :: t) = urlEncChar c ++ pe t := by
  unfold pe
  rw [List.flatMap_cons]

theorem pe_nil : pe [] = [] := rfl

theorem pe_eq_nil_iff {l : List Char} : pe l = [] ↔ l = [] := by
  cases l with
  | nil => simp [pe_nil]
  | cons c t =>
    rw [pe_cons]
    simp only [List.append_eq_nil]
    constructor
    · rintro ⟨h, _⟩
      exact absurd h (urlEncChar_ne_nil c)
    · intro h
      simp at h

/-! ## Generic list helpers -/

theorem takeWhile_all_append {α : Type} {p : α → Bool} {xs : List α}
    (h : ∀ c ∈ xs, p c = true) (ys : List α) :
    (xs ++ ys).takeWhile p = xs ++ ys.takeWhile p := by
  induction xs with
  | nil => simp
  | cons x t ih =>
    rw [List.cons_append, List.takeWhile_cons, if_pos (h x (by simp)), List.cons_append,
      ih (fun c hc => h c (by simp [hc]))]

theorem dropWhile_all_append {α : Type} {p : α → Bool} {xs : List α}
    (h : ∀ c ∈ xs, p c = true) (ys : List α) :
    (xs ++ ys).dropWhile p = ys.dropWhile p := by
  induction xs with
  | nil => simp
  | cons x t ih =>
    rw [List.cons_append, List.dropWhile_cons, if_pos (h x (by simp))]
    exact ih (fun c hc => h c (by simp [hc]))

theorem takeWhile_all {α : Type} {p : α → Bool} {xs : List α}
    (h : ∀ c ∈ xs, p c = true) : xs.takeWhile p = xs :=
  List.takeWhile_eq_self_iff.mpr h

theorem dropWhile_all {α : Type} {p : α → Bool} {xs : List α}
    (h : ∀ c ∈ xs, p c = true) : xs.dropWhile p = [] := by
  induction xs with
  | nil => rfl
  | cons x t ih =>
    rw [List.dropWhile_cons, if_pos (h x (by simp))]
    exact ih (fun c hc => h c (by simp [hc]))

theorem dropWhile_eq_self_of_head {α : Type} {p : α → Bool} {xs : List α}
    (h : ∀ c, xs.head? = some c → p c = false) : xs.dropWhile p = xs := by
  cases xs with
  | nil => rfl
  | cons x t => rw [List.dropWhile_cons, if_neg (by simp [h x rfl])]

/-! ## Sanitisation and lower-casing lemmas -/

theorem mem_sanitizeUrl {c : Char} {l : List Char} (h : c ∈ sanitizeUrl l) : c ∈ l := by
  unfold sanitizeUrl at h
  have h1 := List.mem_of_mem_filter h
  rw [List.mem_reverse] at h1
  have h2 := (List.dropWhile_suffix _).mem h1
  rw [List.mem_reverse] at h2
  exact (List.dropWhile_suffix _).mem h2

theorem sanitizeUrl_eq_self {l : List Char} (h : ∀ c ∈ l, 33 ≤ c.toNat) :
    sanitizeUrl l = l := by
  unfold sanitizeUrl
  have hd1 : l.dropWhile (fun c => c.toNat ≤ 32) = l := by
    apply dropWhile_eq_self_of_head
    intro c hc
    have hcm : c ∈ l := List.mem_of_mem_head? hc
    have := h c hcm
    simp
    omega
  rw [hd1]
  have hd2 : l.reverse.dropWhile (fun c => c.toNat ≤ 32) = l.reverse := by
    apply dropWhile_eq_self_of_head
    intro c hc
    have hcm : c ∈ l := List.mem_reverse.mp (List.mem_of_mem_head? hc)
    have := h c hcm
    simp
    omega
  rw [hd2, List.reverse_reverse]
  apply List.filter_eq_self.mpr
  intro c hc
  have := h c hc
  simp
  omega

theorem lowerChar_toNat (c : Char) :
    (lowerChar c).toNat = if 65 ≤ c.toNat ∧ c.toNat ≤ 90 then c.toNat + 32 else c.toNat := by
  unfold lowerChar
  split
  · rename_i hcond
    simp only [Bool.and_eq_true, decide_eq_true_eq] at hcond
    rw [toNat_ofNat_valid (by omega), if_pos hcond]
  · rename_i hcond
    simp only [Bool.and_eq_true, decide_eq_true_eq, not_and, not_le] at hcond
    rw [if_neg (by omega)]

theorem lowerChar_idem (c : Char) : lowerChar (lowerChar c) = lowerChar c := by
  unfold lowerChar
  split
  · rename_i hcond
    simp only [Bool.and_eq_true, decide_eq_true_eq] at hcond
    rw [if_neg (by rw [toNat_ofNat_valid (by omega)]; simp; omega)]
  · rfl

theorem toLowerList_idem (l : List Char) : toLowerList (toLowerList l) = toLowerList l := by
  unfold toLowerList
  rw [List.map_map]
  exact List.map_congr_left (fun c _ => lowerChar_idem c)

theorem isAsciiAlpha_lower {c : Char} (h : isAsciiAlpha c = true) :
    isAsciiAlpha (lowerChar c) = true := by
  unfold isAsciiAlpha at h ⊢
  rw [lowerChar_toNat]
  simp only [Bool.or_eq_true, Bool.and_eq_true, decide_eq_true_eq] at h ⊢
  split <;> omega

theorem isSchemeChar_lower {c : Char} (h : isSchemeChar c = true) :
    isSchemeChar (lowerChar c) = true := by
  unfold isSchemeChar isAsciiAlpha at h ⊢
  rw [lowerChar_toNat]
  simp only [Bool.or_eq_true, Bool.and_eq_true, decide_eq_true_eq] at h ⊢
  split <;> omega

theorem schemeChar_plain {c : Char} (h : isSchemeChar c = true) : urlPlainChar c = true := by
  unfold isSchemeChar isAsciiAlpha at h
  unfold urlPlainChar
  simp only [Bool.or_eq_true, Bool.and_eq_true, decide_eq_true_eq, bne_iff_ne, ne_eq] at h ⊢
  omega

theorem plain_toNat {c : Char} (h : urlPlainChar c = true) :
    33 ≤ c.toNat ∧ c.toNat ≤ 126 ∧ c.toNat ≠ 34 := by
  unfold urlPlainChar at h
  simp only [Bool.and_eq_true, decide_eq_true_eq, bne_iff_ne, ne_eq] at h
  omega

theorem notAuthEnd_iff {c : Char} : notAuthEnd c = true ↔ (c ≠ '/' ∧ c ≠ '?') := by
  unfold notAuthEnd
  simp

theorem notQuery_iff {c : Char} : notQuery c = true ↔ c ≠ '?' := by
  unfold notQuery
  simp

theorem ne_of_toNat_ne {c d : Char} (h : c.toNat ≠ d.toNat) : c ≠ d := by
  intro he
  exact h (he ▸ rfl)

theorem pctOutChar_notAuthEnd {c : Char} (h : pctOutChar c) : notAuthEnd c = true := by
  rw [notAuthEnd_iff]
  unfold pctOutChar at h
  exact ⟨ne_of_toNat_ne (by simp; omega), ne_of_toNat_ne (by simp; omega)⟩

theorem pctOutChar_notQuery {c : Char} (h : pctOutChar c) : notQuery c = true := by
  rw [notQuery_iff]
  unfold pctOutChar at h
  exact ne_of_toNat_ne (by simp; omega)

/-! ## Parser and serializer of the URL model -/

theorem parseAfterAuth_spec (rest2 : List Char) :
    (∀ c ∈ (parseAfterAuth rest2).1, notAuthEnd c = true) ∧
    ((parseAfterAuth rest2).2.1 = [] ∨ (parseAfterAuth rest2).2.1.head? = some '/') ∧
    (∀ c ∈ (parseAfterAuth rest2).2.1, notQuery c = true) := by
  unfold parseAfterAuth
  dsimp only
  refine ⟨fun c hc => List.mem_takeWhile_imp hc, ?_, fun c hc => List.mem_takeWhile_imp hc⟩
  cases hafter : rest2.dropWhile notAuthEnd with
  | nil => simp
  | cons a t =>
    have hna := List.head?_dropWhile_not notAuthEnd rest2
    rw [hafter] at hna
    simp only [List.head?_cons] at hna
    have ha : a = '/' ∨ a = '?' := by
      by_contra hcon
      push_neg at hcon
      exact absurd (notAuthEnd_iff.mpr hcon) (by simp [hna])
    rcases ha with rfl | rfl
    · right
      rw [List.takeWhile_cons, if_pos (by rw [notQuery_iff]; simp)]
      simp
    · left
      rw [List.takeWhile_cons, if_neg (by rw [notQuery_iff]; simp)]

theorem parseScheme_some {l sch rest : List Char} (h : parseScheme l = some (sch, rest)) :
    (∃ c cs, sch = c :: cs ∧ isAsciiAlpha c = true) ∧
    (∀ c ∈ sch, isSchemeChar c = true) ∧
    toLowerList sch = sch := by
  cases l with
  | nil => simp [parseScheme] at h
  | cons c t =>
    unfold parseScheme at h
    dsimp only at h
    split at h
    · rename_i hca
      split at h
      · rename_i r hdw
        simp only [Option.some.injEq, Prod.mk.injEq] at h
        obtain ⟨hsch, hrest⟩ := h
        have hschemec : isSchemeChar c = true := by
          unfold isSchemeChar
          rw [hca]
          simp
        have htw : (c :: t).takeWhile isSchemeChar = c :: t.takeWhile isSchemeChar := by
          rw [List.takeWhile_cons, if_pos hschemec]
        refine ⟨?_, ?_, ?_⟩
        · refine ⟨lowerChar c, toLowerList (t.takeWhile isSchemeChar), ?_, isAsciiAlpha_lower hca⟩
          rw [← hsch, htw]
          unfold toLowerList
          simp only [List.map_cons]
        · intro x hx
          rw [← hsch] at hx
          unfold toLowerList at hx
          rcases List.mem_map.mp hx with ⟨y, hy, rfl⟩
          exact isSchemeChar_lower (List.mem_takeWhile_imp hy)
        · rw [← hsch, toLowerList_idem]
      · simp at h
    · simp at h

theorem parseHier_inv {l : List Char} {u : HierUrl} (h : parseHier l = some u) : UrlInv u := by
  unfold parseHier at h
  split at h
  · rename_i sch rest hps
    split at h
    · have hsch := parseScheme_some hps
      have hpa := parseAfterAuth_spec (rest.drop 2)
      simp only [Option.some.injEq] at h
      subst h
      exact ⟨hsch.1, hsch.2.1, hsch.2.2, hpa.1, hpa.2.1, hpa.2.2⟩
    · simp at h
  · simp at h

theorem dirOf_prefix (p : List Char) :
    (p.reverse.dropWhile (fun c => c ≠ '/')).reverse <+: p := by
  have h1 : p.reverse.dropWhile (fun c => c ≠ '/') <:+ p.reverse := List.dropWhile_suffix _
  have h2 : ((p.reverse.dropWhile (fun c => c ≠ '/')).reverse).reverse <:+ p.reverse := by
    rw [List.reverse_reverse]
    exact h1
  exact List.reverse_suffix.mp h2

theorem dirOf_head {p : List Char} (hp : p = [] ∨ p.head? = some '/') :
    (dirOf p).head? = some '/' := by
  unfold dirOf
  dsimp only
  split
  · simp
  · rename_i hne
    rcases hp with rfl | hp
    · simp at hne
    · obtain ⟨tail, htail⟩ := dirOf_prefix p
      rw [← htail] at hp
      rw [List.head?_append_of_ne_nil _ hne] at hp
      exact hp

theorem mergeRel_inv {b : HierUrl} (hb : UrlInv b) (i : List Char) :
    UrlInv (mergeRel b i) := by
  obtain ⟨hb1, hb2, hb3, hb4, hb5, hb6⟩ := hb
  unfold mergeRel
  split
  · exact ⟨hb1, hb2, hb3, hb4, hb5, hb6⟩
  · rename_i rest2
    have hpa := parseAfterAuth_spec rest2
    rcases hpae : parseAfterAuth rest2 with ⟨auth, path, query⟩
    rw [hpae] at hpa
    dsimp only at hpa ⊢
    exact ⟨hb1, hb2, hb3, hpa.1, hpa.2.1, hpa.2.2⟩
  · rename_i tail hnot
    refine ⟨hb1, hb2, hb3, hb4, ?_, fun c hc => List.mem_takeWhile_imp hc⟩
    right
    rw [List.takeWhile_cons, if_pos (by rw [notQuery_iff]; simp)]
    simp
  · exact ⟨hb1, hb2, hb3, hb4, hb5, hb6⟩
  · rename_i other h1 h2 h3 h4
    dsimp only
    refine ⟨hb1, hb2, hb3, hb4, ?_, fun c hc => List.mem_takeWhile_imp hc⟩
    right
    have hjh : (dirOf b.path ++ i).head? = some '/' := by
      rw [List.head?_append_of_ne_nil]
      · exact dirOf_head hb5
      · intro hnil
        have := dirOf_head hb5
        rw [hnil] at this
        simp at this
    cases hj : dirOf b.path ++ i with
    | nil => rw [hj] at hjh; simp at hjh
    | cons x t =>
      rw [hj] at hjh
      simp only [List.head?_cons, Option.some.injEq] at hjh
      subst hjh
      rw [List.takeWhile_cons, if_pos (by rw [notQuery_iff]; simp)]
      simp

theorem serializeHier_plain {u : HierUrl} (hu : UrlInv u) :
    ∀ c ∈ serializeHier u, urlPlainChar c = true := by
  obtain ⟨_hs1, hs2, _hs3, _h4, _h5, _h6⟩ := hu
  intro c hc
  unfold serializeHier at hc
  rcases List.mem_append.mp hc with hc | hc
  · rcases List.mem_append.mp hc with hc | hc
    · rcases List.mem_append.mp hc with hc | hc
      · exact schemeChar_plain (hs2 c hc)
      · rcases List.mem_cons.mp hc with rfl | hc
        · decide
        · rcases List.mem_cons.mp hc with rfl | hc
          · decide
          · rcases List.mem_cons.mp hc with rfl | hc
            · decide
            · exact pe_plain hc
    · split at hc
      · rw [List.mem_singleton] at hc
        subst hc
        decide
      · exact pe_plain hc
  · split at hc
    · rename_i q _
      rcases List.mem_cons.mp hc with rfl | hc
      · decide
      · exact pe_plain hc
    · simp at hc

theorem pe_head_slash {l : List Char} (h : l.head? = some '/') :
    (pe l).head? = some '/' := by
  cases l with
  | nil => simp at h
  | cons c t =>
    simp only [List.head?_cons, Option.some.injEq] at h
    subst h
    rw [pe_cons, urlEncChar_plain_eq (by decide)]
    simp

theorem parseAfterAuth_eq {auth P Q Qr : List Char} {Qopt : Option (List Char)}
    (hauth : ∀ x ∈ auth, notAuthEnd x = true)
    (hP : P.head? = some '/')
    (hPq : ∀ x ∈ P, notQuery x = true)
    (hQ : (Q = [] ∧ Qopt = none) ∨ (Q = '?' :: Qr ∧ Qopt = some Qr)) :
    parseAfterAuth (auth ++ (P ++ Q)) = (auth, P, Qopt) := by
  cases P with
  | nil => simp at hP
  | cons p0 P' =>
    simp only [List.head?_cons, Option.some.injEq] at hP
    subst hP
    unfold parseAfterAuth
    dsimp only
    have hslash : notAuthEnd '/' = false := by decide
    have ht1 : (auth ++ ('/' :: P' ++ Q)).takeWhile notAuthEnd = auth := by
      rw [takeWhile_all_append hauth, List.cons_append, List.takeWhile_cons, if_neg (by simp [hslash])]
      simp
    have hd1 : (auth ++ ('/' :: P' ++ Q)).dropWhile notAuthEnd = '/' :: P' ++ Q := by
      rw [dropWhile_all_append hauth, List.cons_append, List.dropWhile_cons, if_neg (by simp [hslash])]
    rw [ht1, hd1]
    have hq2 : notQuery '?' = false := by decide
    rcases hQ with ⟨rfl, rfl⟩ | ⟨rfl, rfl⟩
    · have ht2 : ('/' :: P' ++ []).takeWhile notQuery = '/' :: P' := by
        rw [List.append_nil]
        exact takeWhile_all hPq
      have hd2 : ('/' :: P' ++ []).dropWhile notQuery = [] := by
        rw [List.append_nil]
        exact dropWhile_all hPq
      rw [List.cons_append] at ht2 hd2 ⊢
      rw [ht2, hd2]
    · have ht2 : (('/' :: P') ++ ('?' :: Qr)).takeWhile notQuery = '/' :: P' := by
        rw [takeWhile_all_append hPq, List.takeWhile_cons, if_neg (by simp [hq2])]
        simp
      have hd2 : (('/' :: P') ++ ('?' :: Qr)).dropWhile notQuery = '?' :: Qr := by
        rw [dropWhile_all_append hPq, List.dropWhile_cons, if_neg (by simp [hq2])]
      rw [List.cons_append] at ht2 hd2 ⊢
      rw [ht2, hd2]
      simp

theorem parse_serialize {u : HierUrl} (hu : UrlInv u) :
    parseHier (serializeHier u) = some ⟨u.scheme, pe u.auth,
      (if u.path = [] then ['/'] else pe u.path), Option.map pe u.query⟩ := by
  obtain ⟨⟨c0, cs, hsch0, hc0⟩, hs2, hs3, ha4, hp5, hp6⟩ := hu
  have hbodyP : (if u.path = [] then ['/'] else pe u.path).head? = some '/' := by
    split
    · simp
    · rename_i hne
      rcases hp5 with h | h
      · exact absurd h hne
      · exact pe_head_slash h
  have hPq : ∀ x ∈ (if u.path = [] then ['/'] else pe u.path), notQuery x = true := by
    intro x hx
    split at hx
    · rw [List.mem_singleton] at hx
      subst hx
      decide
    · rcases pe_chars hx with ⟨hm, _⟩ | hpct
      · exact hp6 x hm
      · exact pctOutChar_notQuery hpct
  have hauth : ∀ x ∈ pe u.auth, notAuthEnd x = true := by
    intro x hx
    rcases pe_chars hx with ⟨hm, _⟩ | hpct
    · exact ha4 x hm
    · exact pctOutChar_notAuthEnd hpct
  have hser : serializeHier u = u.scheme ++ ':' :: '/' :: '/' ::
      (pe u.auth ++ ((if u.path = [] then ['/'] else pe u.path) ++
        (match u.query with
         | some q => '?' :: pe q
         | none => []))) := by
    unfold serializeHier
    simp [List.append_assoc]
  have hps : parseScheme (serializeHier u) = some (u.scheme, '/' :: '/' ::
      (pe u.auth ++ ((if u.path = [] then ['/'] else pe u.path) ++
        (match u.query with
         | some q => '?' :: pe q
         | none => [])))) := by
    rw [hser, hsch0]
    unfold parseScheme
    rw [List.cons_append]
    dsimp only
    rw [if_pos hc0]
    have hcolon : isSchemeChar ':' = false := by decide
    have htw : ((c0 :: cs) ++ ':' :: '/' :: '/' ::
        (pe u.auth ++ ((if u.path = [] then ['/'] else pe u.path) ++
          (match u.query with
           | some q => '?' :: pe q
           | none => [])))).takeWhile isSchemeChar = c0 :: cs := by
      rw [takeWhile_all_append (by rw [← hsch0]; exact hs2), List.takeWhile_cons,
        if_neg (by simp [hcolon])]
      simp
    have hdw : ((c0 :: cs) ++ ':' :: '/' :: '/' ::
        (pe u.auth ++ ((if u.path = [] then ['/'] else pe u.path) ++
          (match u.query with
           | some q => '?' :: pe q
           | none => [])))).dropWhile isSchemeChar = ':' :: '/' :: '/' ::
        (pe u.auth ++ ((if u.path = [] then ['/'] else pe u.path) ++
          (match u.query with
           | some q => '?' :: pe q
           | none => []))) := by
      rw [dropWhile_all_append (by rw [← hsch0]; exact hs2), List.dropWhile_cons,
        if_neg (by simp [hcolon])]
    rw [List.cons_append] at htw hdw
    rw [htw, hdw]
    rw [← hsch0, hs3]
    rfl
  have hph : parseHier (serializeHier u) = some ⟨u.scheme,
      (parseAfterAuth (pe u.auth ++ ((if u.path = [] then ['/'] else pe u.path) ++
        (match u.query with
         | some q => '?' :: pe q
         | none => [])))).1,
      (parseAfterAuth (pe u.auth ++ ((if u.path = [] then ['/'] else pe u.path) ++
        (match u.query with
         | some q => '?' :: pe q
         | none => [])))).2.1,
      (parseAfterAuth (pe u.auth ++ ((if u.path = [] then ['/'] else pe u.path) ++
        (match u.query with
         | some q => '?' :: pe q
         | none => [])))).2.2⟩ := by
    unfold parseHier
    rw [hps]
    rfl
  rw [hph]
  cases hq : u.query with
  | none =>
    dsimp only
    rw [@parseAfterAuth_eq _ _ _ [] none hauth hbodyP hPq (Or.inl ⟨rfl, rfl⟩)]
    rfl
  | some q =>
    dsimp only
    rw [@parseAfterAuth_eq _ _ _ (pe q) (some (pe q)) hauth hbodyP hPq (Or.inr ⟨rfl, rfl⟩)]
    rfl

theorem serialize_canon {u : HierUrl} (hu : UrlInv u) :
    serializeHier ⟨u.scheme, pe u.auth,
      (if u.path = [] then ['/'] else pe u.path), Option.map pe u.query⟩ =
    serializeHier u := by
  obtain ⟨_hs1, _hs2, _hs3, _ha4, hp5, _hp6⟩ := hu
  unfold serializeHier
  dsimp only
  rw [pe_idem]
  congr 1
  congr 1
  · by_cases hp : u.path = []
    · rw [if_pos hp, if_neg (by simp), pe_eq_self (by intro c hc; rw [List.mem_singleton] at hc; subst hc; decide)]
    · rw [if_neg hp, if_neg (fun hcon => hp (pe_eq_nil_iff.mp hcon)), pe_idem]
  · cases u.query with
    | none => rfl
    | some q =>
      show '?' :: pe (pe q) = '?' :: pe q
      rw [pe_idem]

/-! ## `resolveUrl`: case equations, idempotence, output shape -/

theorem resolveUrl_hier {b u : String} {h : HierUrl}
    (hp : parseHier (sanitizeUrl u.data) = some h) :
    resolveUrl b u = String.mk (serializeHier h) := by
  unfold resolveUrl
  dsimp only
  rw [hp]

theorem resolveUrl_opq {b u : String} {sch rest : List Char}
    (hp : parseHier (sanitizeUrl u.data) = none)
    (hs : parseScheme (sanitizeUrl u.data) = some (sch, rest)) :
    resolveUrl b u = String.mk (sch ++ ':' :: pe rest) := by
  unfold resolveUrl
  dsimp only
  rw [hp, hs]

theorem resolveUrl_rel {b u : String} {bb : HierUrl}
    (hp : parseHier (sanitizeUrl u.data) = none)
    (hs : parseScheme (sanitizeUrl u.data) = none)
    (hb : parseHier (sanitizeUrl b.data) = some bb) :
    resolveUrl b u = String.mk (serializeHier (mergeRel bb (sanitizeUrl u.data))) := by
  unfold resolveUrl
  dsimp only
  rw [hp, hs, hb]

theorem resolveUrl_fail {b u : String}
    (hp : parseHier (sanitizeUrl u.data) = none)
    (hs : parseScheme (sanitizeUrl u.data) = none)
    (hb : parseHier (sanitizeUrl b.data) = none) :
    resolveUrl b u = u := by
  unfold resolveUrl
  dsimp only
  rw [hp, hs, hb]

theorem resolveUrl_serial (b : String) {u : HierUrl} (hu : UrlInv u) :
    resolveUrl b (String.mk (serializeHier u)) = String.mk (serializeHier u) := by
  have hsan : sanitizeUrl (String.mk (serializeHier u)).data = serializeHier u :=
    sanitizeUrl_eq_self (fun c hc => (plain_toNat (serializeHier_plain hu c hc)).1)
  rw [resolveUrl_hier (h := ⟨u.scheme, pe u.auth,
      (if u.path = [] then ['/'] else pe u.path), Option.map pe u.query⟩)
    (by rw [hsan, parse_serialize hu])]
  exact congrArg String.mk (serialize_canon hu)

theorem take_two_eq_of {l : List Char} (h : l.take 2 = ['/', '/']) :
    ∃ t, l = '/' :: '/' :: t := by
  cases l with
  | nil => simp at h
  | cons a t1 =>
    cases t1 with
    | nil => simp at h
    | cons b t2 =>
      simp only [List.take_succ_cons, List.take_zero] at h
      have ha : a = '/' := by
        have := congrArg (fun x => x.head?) h
        simpa using this
      have hb : b = '/' := by
        have := congrArg (fun x => x.tail.head?) h
        simpa using this
      exact ⟨t2, by rw [ha, hb]⟩

theorem parseHier_eq_none_of_shape {l sch rest : List Char}
    (hs : parseScheme l = some (sch, rest))
    (hn : ∀ r2, rest ≠ '/' :: '/' :: r2) :
    parseHier l = none := by
  unfold parseHier
  rw [hs]
  dsimp only
  rw [if_neg]
  intro hc
  obtain ⟨t, ht⟩ := take_two_eq_of hc
  exact hn t ht

theorem urlEncChar_head (c : Char) :
    (urlEncChar c).head? = some (if urlPlainChar c then c else '%') := by
  unfold urlEncChar
  split
  · rfl
  · cases hb : utf8Bytes c.toNat with
    | nil => exact absurd hb (utf8Bytes_ne_nil _)
    | cons b bs =>
      rw [List.flatMap_cons]
      rfl

theorem pe_head_slash_inv {l : List Char} (h : (pe l).head? = some '/') :
    ∃ t, l = '/' :: t := by
  cases l with
  | nil => simp [pe_nil] at h
  | cons c t =>
    rw [pe_cons, List.head?_append_of_ne_nil _ (urlEncChar_ne_nil c), urlEncChar_head] at h
    simp only [Option.some.injEq] at h
    refine ⟨t, ?_⟩
    by_cases hp : urlPlainChar c = true
    · rw [if_pos hp] at h
      rw [h]
    · rw [if_neg hp] at h
      exact absurd h.symm (by decide)

theorem pe_take_two {rest : List Char} (hn : ∀ r2, rest ≠ '/' :: '/' :: r2) :
    ∀ r2, pe rest ≠ '/' :: '/' :: r2 := by
  intro r2 hc
  have h1 : (pe rest).head? = some '/' := by rw [hc]; rfl
  obtain ⟨t, rfl⟩ := pe_head_slash_inv h1
  rw [pe_cons, urlEncChar_plain_eq (by decide)] at hc
  simp only [List.singleton_append, List.cons.injEq] at hc
  have h2 : (pe t).head? = some '/' := by rw [hc.2]; rfl
  obtain ⟨t2, rfl⟩ := pe_head_slash_inv h2
  exact hn t2 rfl

theorem rest_not_slashes {i sch rest : List Char}
    (hp : parseHier i = none) (hs : parseScheme i = some (sch, rest)) :
    ∀ r2, rest ≠ '/' :: '/' :: r2 := by
  intro r2 hc
  unfold parseHier at hp
  rw [hs] at hp
  dsimp only at hp
  rw [if_pos (by rw [hc]; rfl)] at hp
  simp at hp

theorem parseScheme_opq {sch : List Char}
    (h1 : ∃ c cs, sch = c :: cs ∧ isAsciiAlpha c = true)
    (h2 : ∀ c ∈ sch, isSchemeChar c = true)
    (h3 : toLowerList sch = sch) (R : List Char) :
    parseScheme (sch ++ ':' :: R) = some (sch, R) := by
  obtain ⟨c0, cs, rfl, hal⟩ := h1
  rw [List.cons_append]
  unfold parseScheme
  dsimp only
  rw [if_pos hal]
  have hcolon : isSchemeChar ':' = false := by decide
  have htw : ((c0 :: cs) ++ ':' :: R).takeWhile isSchemeChar = c0 :: cs := by
    rw [takeWhile_all_append h2, List.takeWhile_cons, if_neg (by simp [hcolon])]
    simp
  have hdw : ((c0 :: cs) ++ ':' :: R).dropWhile isSchemeChar = ':' :: R := by
    rw [dropWhile_all_append h2, List.dropWhile_cons, if_neg (by simp [hcolon])]
  rw [List.cons_append] at htw hdw
  rw [htw, hdw, h3]
  rfl

theorem resolveUrl_opq_fix (b : String) {i sch rest : List Char}
    (hp : parseHier i = none) (hs : parseScheme i = some (sch, rest)) :
    resolveUrl b (String.mk (sch ++ ':' :: pe rest)) = String.mk (sch ++ ':' :: pe rest) := by
  obtain ⟨hsc1, hsc2, hsc3⟩ := parseScheme_some hs
  have hplain : ∀ c ∈ sch ++ ':' :: pe rest, urlPlainChar c = true := by
    intro c hc
    rcases List.mem_append.mp hc with hc | hc
    · exact schemeChar_plain (hsc2 c hc)
    · rcases List.mem_cons.mp hc with rfl | hc
      · decide
      · exact pe_plain hc
  have hsan : sanitizeUrl (String.mk (sch ++ ':' :: pe rest)).data = sch ++ ':' :: pe rest :=
    sanitizeUrl_eq_self (fun c hc => (plain_toNat (hplain c hc)).1)
  have hps2 : parseScheme (sanitizeUrl (String.mk (sch ++ ':' :: pe rest)).data) =
      some (sch, pe rest) := by
    rw [hsan]
    exact parseScheme_opq hsc1 hsc2 hsc3 (pe rest)
  have hph2 : parseHier (sanitizeUrl (String.mk (sch ++ ':' :: pe rest)).data) = none :=
    parseHier_eq_none_of_shape hps2 (pe_take_two (rest_not_slashes hp hs))
  rw [resolveUrl_opq hph2 hps2, pe_idem]

/-- `resolveUrl` either returns its input unchanged (constructor failure) or a
serialised URL: printable-ASCII text led by an ASCII letter. -/
theorem resolveUrl_out (b u : String) :
    resolveUrl b u = u ∨
    ((∀ c ∈ (resolveUrl b u).data, urlPlainChar c = true) ∧
     ∃ c0 cs0, (resolveUrl b u).data = c0 :: cs0 ∧ isAsciiAlpha c0 = true) := by
  cases hp : parseHier (sanitizeUrl u.data) with
  | some h =>
    right
    rw [resolveUrl_hier hp]
    have hinv := parseHier_inv hp
    refine ⟨fun c hc => serializeHier_plain hinv c hc, ?_⟩
    obtain ⟨⟨c0, cs, hsch, hal⟩, _, _, _, _, _⟩ := hinv
    refine ⟨c0, cs ++ ':' :: '/' :: '/' :: pe h.auth ++
      (if h.path = [] then ['/'] else pe h.path) ++
      (match h.query with
       | some q => '?' :: pe q
       | none => []), ?_, hal⟩
    show serializeHier h = _
    unfold serializeHier
    rw [hsch]
    simp [List.append_assoc]
  | none =>
    cases hs : parseScheme (sanitizeUrl u.data) with
    | some p =>
      obtain ⟨sch, rest⟩ := p
      right
      rw [resolveUrl_opq hp hs]
      obtain ⟨⟨c0, cs, hsch, hal⟩, hsc2, _⟩ := parseScheme_some hs
      refine ⟨?_, c0, cs ++ ':' :: pe rest, ?_, hal⟩
      · intro c hc
        rcases List.mem_append.mp hc with hc | hc
        · exact schemeChar_plain (hsc2 c hc)
        · rcases List.mem_cons.mp hc with rfl | hc
          · decide
          · exact pe_plain hc
      · show sch ++ ':' :: pe rest = _
        rw [hsch, List.cons_append]
    | none =>
      cases hb : parseHier (sanitizeUrl b.data) with
      | some bb =>
        right
        rw [resolveUrl_rel hp hs hb]
        have hinv := mergeRel_inv (parseHier_inv hb) (sanitizeUrl u.data)
        refine ⟨fun c hc => serializeHier_plain hinv c hc, ?_⟩
        obtain ⟨⟨c0, cs, hsch, hal⟩, _, _, _, _, _⟩ := hinv
        refine ⟨c0, cs ++ ':' :: '/' :: '/' :: pe (mergeRel bb (sanitizeUrl u.data)).auth ++
          (if (mergeRel bb (sanitizeUrl u.data)).path = [] then ['/']
           else pe (mergeRel bb (sanitizeUrl u.data)).path) ++
          (match (mergeRel bb (sanitizeUrl u.data)).query with
           | some q => '?' :: pe q
           | none => []), ?_, hal⟩
        show serializeHier _ = _
        unfold serializeHier
        rw [hsch]
        simp [List.append_assoc]
      | none =>
        left
        exact resolveUrl_fail hp hs hb

/-- `resolveUrl` is idempotent: resolving its own output is a no-op. -/
theorem resolveUrl_idem (b u : String) :
    resolveUrl b (resolveUrl b u) = resolveUrl b u := by
  cases hp : parseHier (sanitizeUrl u.data) with
  | some h =>
    rw [resolveUrl_hier hp]
    exact resolveUrl_serial b (parseHier_inv hp)
  | none =>
    cases hs : parseScheme (sanitizeUrl u.data) with
    | some p =>
      obtain ⟨sch, rest⟩ := p
      rw [resolveUrl_opq hp hs]
      exact resolveUrl_opq_fix b hp hs
    | none =>
      cases hb : parseHier (sanitizeUrl b.data) with
      | some bb =>
        rw [resolveUrl_rel hp hs hb]
        exact resolveUrl_serial b (mergeRel_inv (parseHier_inv hb) (sanitizeUrl u.data))
      | none =>
        rw [resolveUrl_fail hp hs hb, resolveUrl_fail hp hs hb]

/-! ## Output-shape corollaries of `resolveUrl`, and trim lemmas -/

theorem str_eq_empty_iff {s : String} : s = "" ↔ s.data = [] := by
  constructor
  · intro h
    rw [h]
  · intro h
    exact String.ext h

theorem plain_not_jsWs {c : Char} (h : urlPlainChar c = true) : isJsWs c = false := by
  have := plain_toNat h
  unfold isJsWs
  simp only [Bool.or_eq_false_iff, decide_eq_false_iff_not, Bool.and_eq_false_iff]
  omega

theorem trimChars_eq_self_of_all {l : List Char} (h : ∀ c ∈ l, isJsWs c = false) :
    trimChars l = l := by
  unfold trimChars
  rw [dropWhile_eq_self_of_head (fun c hc => h c (List.mem_of_mem_head? hc)),
    dropWhile_eq_self_of_head
      (fun c hc => h c (List.mem_reverse.mp (List.mem_of_mem_head? hc))),
    List.reverse_reverse]

theorem mem_trimChars {c : Char} {l : List Char} (h : c ∈ trimChars l) : c ∈ l := by
  unfold trimChars at h
  rw [List.mem_reverse] at h
  have h2 := (List.dropWhile_suffix _).mem h
  rw [List.mem_reverse] at h2
  exact (List.dropWhile_suffix _).mem h2

theorem trimChars_eq_self_of_ends {l : List Char}
    (h1 : ∀ c, l.head? = some c → isJsWs c = false)
    (h2 : ∀ c, l.getLast? = some c → isJsWs c = false) :
    trimChars l = l := by
  unfold trimChars
  rw [dropWhile_eq_self_of_head h1,
    dropWhile_eq_self_of_head (fun c hc => h2 c (by rwa [List.head?_reverse] at hc)),
    List.reverse_reverse]

theorem trimChars_last_not_ws {l : List Char} {c : Char}
    (h : (trimChars l).getLast? = some c) : isJsWs c = false := by
  unfold trimChars at h
  rw [List.getLast?_reverse] at h
  have hd := List.head?_dropWhile_not isJsWs ((l.dropWhile isJsWs).reverse)
  rw [h] at hd
  exact hd

theorem trimChars_head_not_ws {l : List Char} {c : Char}
    (h : (trimChars l).head? = some c) : isJsWs c = false := by
  unfold trimChars at h
  rw [List.head?_reverse] at h
  obtain ⟨pre, hpre⟩ := List.dropWhile_suffix (l := (l.dropWhile isJsWs).reverse) isJsWs
  have h2 : ((l.dropWhile isJsWs).reverse).getLast? = some c := by
    conv_lhs => rw [← hpre]
    rw [List.getLast?_append, h]
    simp
  rw [List.getLast?_reverse] at h2
  have hd := List.head?_dropWhile_not isJsWs l
  rw [h2] at hd
  exact hd

theorem trimChars_idem (l : List Char) : trimChars (trimChars l) = trimChars l :=
  trimChars_eq_self_of_ends (fun _ hc => trimChars_head_not_ws hc)
    (fun _ hc => trimChars_last_not_ws hc)

theorem jsTrim_idem (s : String) : jsTrim (jsTrim s) = jsTrim s := by
  unfold jsTrim
  exact congrArg String.mk (trimChars_idem s.data)

theorem resolveUrl_ne_empty {b u : String} (h : u ≠ "") : resolveUrl b u ≠ "" := by
  rcases resolveUrl_out b u with he | ⟨_, c0, cs0, hd, _⟩
  · rw [he]
    exact h
  · intro heq
    have h2 := str_eq_empty_iff.mp heq
    rw [hd] at h2
    simp at h2

theorem resolveUrl_trim {b u : String} (h : jsTrim u = u) :
    jsTrim (resolveUrl b u) = resolveUrl b u := by
  rcases resolveUrl_out b u with he | ⟨hplain, _⟩
  · rw [he]
    exact h
  · unfold jsTrim
    rw [trimChars_eq_self_of_all (fun c hc => plain_not_jsWs (hplain c hc))]

theorem resolveUrl_no_nl {b u : String} (h : ∀ c ∈ u.data, c ≠ '\n') :
    ∀ c ∈ (resolveUrl b u).data, c ≠ '\n' := by
  rcases resolveUrl_out b u with he | ⟨hplain, _⟩
  · rw [he]
    exact h
  · intro c hc
    have := plain_toNat (hplain c hc)
    exact ne_of_toNat_ne (by simp; omega)

theorem resolveUrl_no_quote {b u : String} (h : ∀ c ∈ u.data, c ≠ '"') :
    ∀ c ∈ (resolveUrl b u).data, c ≠ '"' := by
  rcases resolveUrl_out b u with he | ⟨hplain, _⟩
  · rw [he]
    exact h
  · intro c hc
    have := plain_toNat (hplain c hc)
    exact ne_of_toNat_ne (by simp; omega)

theorem jsStartsWith_hash_iff {s : String} :
    jsStartsWith s "#" = true ↔ s.data.head? = some '#' := by
  unfold jsStartsWith
  show listPrefixOf ['#'] s.data = true ↔ _
  cases hd : s.data with
  | nil => simp [listPrefixOf]
  | cons c t =>
    unfold listPrefixOf
    simp [listPrefixOf, eq_comm]

theorem resolveUrl_not_hash {b u : String} (h : ¬jsStartsWith u "#" = true) :
    ¬jsStartsWith (resolveUrl b u) "#" = true := by
  rcases resolveUrl_out b u with he | ⟨_, c0, cs0, hd, hal⟩
  · rw [he]
    exact h
  · rw [jsStartsWith_hash_iff, hd]
    simp only [List.head?_cons, Option.some.injEq]
    intro hc
    subst hc
    unfold isAsciiAlpha at hal
    simp at hal

/-! ## Scanner (`scanUri`) lemmas -/

theorem scanUri_nil (b : String) : scanUri b [] = [] := by
  unfold scanUri
  simp

theorem scanUri_eq_copy {b : String} {c : Char} {t : List Char}
    (h : ¬((c :: t).take 5 = uriPrefix ∧
        ((c :: t).drop 5).takeWhile (fun d => d ≠ '"') ≠ [] ∧
        ((c :: t).drop 5).drop (((c :: t).drop 5).takeWhile (fun d => d ≠ '"')).length ≠ [])) :
    scanUri b (c :: t) = c :: scanUri b t := by
  conv_lhs => rw [scanUri]
  rw [dif_neg (List.cons_ne_nil c t)]
  dsimp only
  by_cases h5 : (c :: t).take 5 = uriPrefix
  · rw [if_pos h5, if_neg (fun hcon => h ⟨h5, hcon.1, hcon.2⟩)]
    rfl
  · rw [if_neg h5]
    rfl

theorem scanUri_cons_ne_U {b : String} {c : Char} (t : List Char) (h : c ≠ 'U') :
    scanUri b (c :: t) = c :: scanUri b t := by
  apply scanUri_eq_copy
  intro hcon
  apply h
  have h5 := hcon.1
  rw [show (5 : Nat) = 4 + 1 from rfl, List.take_succ_cons] at h5
  have := congrArg List.head? h5
  simpa [uriPrefix] using this

theorem scanUri_eq_match {b : String} {v w : List Char}
    (hv : v ≠ []) (hq : ∀ c ∈ v, c ≠ '"') :
    scanUri b (uriPrefix ++ v ++ '"' :: w) =
      uriPrefix ++ (resolveUrl b (String.mk v)).data ++ '"' :: scanUri b w := by
  have hq2 : ∀ c ∈ v, (fun d => decide (d ≠ '"')) c = true := by
    intro c hc
    simp [hq c hc]
  have hassoc : uriPrefix ++ v ++ '"' :: w = uriPrefix ++ (v ++ '"' :: w) := by
    rw [List.append_assoc]
  have htake : (uriPrefix ++ v ++ '"' :: w).take 5 = uriPrefix := by
    rw [hassoc]
    exact List.take_left uriPrefix _
  have hdrop : (uriPrefix ++ v ++ '"' :: w).drop 5 = v ++ '"' :: w := by
    rw [hassoc]
    exact List.drop_left uriPrefix _
  have htw : (v ++ '"' :: w).takeWhile (fun d => d ≠ '"') = v := by
    rw [takeWhile_all_append hq2, List.takeWhile_cons]
    simp
  have hd1 : (v ++ '"' :: w).drop v.length = '"' :: w := List.drop_left v _
  have hd2 : (v ++ '"' :: w).drop (v.length + 1) = w := by
    rw [show v ++ '"' :: w = (v ++ ['"']) ++ w by simp, show v.length + 1 = (v ++ ['"']).length by simp]
    exact List.drop_left _ _
  have hne : uriPrefix ++ v ++ '"' :: w ≠ [] := by simp [uriPrefix]
  conv_lhs => rw [scanUri]
  rw [dif_neg hne]
  dsimp only
  rw [if_pos htake, hdrop, htw, if_pos ⟨hv, by rw [hd1]; exact List.cons_ne_nil _ _⟩, hd2]

theorem scanUri_quote_free {b : String} : ∀ {l : List Char}, (∀ c ∈ l, c ≠ '"') →
    scanUri b l = l := by
  intro l
  induction l with
  | nil => intro _; exact scanUri_nil b
  | cons c t ih =>
    intro h
    rw [scanUri_eq_copy, ih (fun d hd => h d (List.mem_cons_of_mem c hd))]
    intro hcon
    have h5 := hcon.1
    have hmem : '"' ∈ (c :: t).take 5 := by
      rw [h5]
      decide
    exact h '"' (List.take_subset 5 _ hmem) rfl

theorem takeWhile_eq_nil_of_head {α : Type} {p : α → Bool} {x : List α}
    (h : ∀ c, x.head? = some c → p c = false) : x.takeWhile p = [] := by
  cases x with
  | nil => rfl
  | cons a t => rw [List.takeWhile_cons, if_neg (by simp [h a rfl])]

theorem head_not_of_takeWhile_nil {α : Type} {p : α → Bool} {x : List α}
    (h : x.takeWhile p = []) : ∀ c, x.head? = some c → p c = false := by
  cases x with
  | nil => simp
  | cons a t =>
    intro c hc
    rw [List.takeWhile_cons] at h
    by_cases hp : p a = true
    · rw [if_pos hp] at h
      exact absurd h (List.cons_ne_nil _ _)
    · simp only [List.head?_cons, Option.some.injEq] at hc
      subst hc
      simpa using hp

theorem getLast?_append_right {α : Type} {x y : List α} (hy : y ≠ []) :
    (x ++ y).getLast? = y.getLast? := by
  rw [List.getLast?_append]
  cases hk : y.getLast? with
  | none => exact absurd (List.getLast?_eq_none_iff.mp hk) hy
  | some d => simp

theorem head?_eq_of_take_one {α : Type} {x y : List α} (h : x.take 1 = y.take 1) :
    x.head? = y.head? := by
  cases x <;> cases y <;> simp_all

/-- Case analysis on one `scanUri` step: either the position matches
`URI="value"` (giving the replacement equation), or the head character is
copied and the match condition fails at this position. -/
theorem scanUri_cases (b : String) (l : List Char) (hl : l ≠ []) :
    (∃ v w, v ≠ [] ∧ (∀ c ∈ v, c ≠ '"') ∧ l = uriPrefix ++ v ++ '"' :: w ∧
      scanUri b l = uriPrefix ++ (resolveUrl b (String.mk v)).data ++ '"' :: scanUri b w) ∨
    (∃ c t, l = c :: t ∧ scanUri b l = c :: scanUri b t ∧
      ¬((c :: t).take 5 = uriPrefix ∧
        ((c :: t).drop 5).takeWhile (fun d => d ≠ '"') ≠ [] ∧
        ((c :: t).drop 5).drop (((c :: t).drop 5).takeWhile (fun d => d ≠ '"')).length ≠ [])) := by
  obtain ⟨c, t, rfl⟩ : ∃ c t, l = c :: t := by
    cases l with
    | nil => exact absurd rfl hl
    | cons c t => exact ⟨c, t, rfl⟩
  by_cases hm : (c :: t).take 5 = uriPrefix ∧
      ((c :: t).drop 5).takeWhile (fun d => d ≠ '"') ≠ [] ∧
      ((c :: t).drop 5).drop (((c :: t).drop 5).takeWhile (fun d => d ≠ '"')).length ≠ []
  · left
    obtain ⟨h5, hv, hcl⟩ := hm
    have hpre : ((c :: t).drop 5).take (((c :: t).drop 5).takeWhile (fun d => d ≠ '"')).length =
        ((c :: t).drop 5).takeWhile (fun d => d ≠ '"') :=
      (List.prefix_iff_eq_take.mp (List.takeWhile_prefix _)).symm
    have hsplit : ((c :: t).drop 5).takeWhile (fun d => d ≠ '"') ++
        ((c :: t).drop 5).drop (((c :: t).drop 5).takeWhile (fun d => d ≠ '"')).length =
        (c :: t).drop 5 := by
      conv_rhs => rw [← List.take_append_drop
        (((c :: t).drop 5).takeWhile (fun d => d ≠ '"')).length ((c :: t).drop 5)]
      rw [hpre]
    have hdw : ((c :: t).drop 5).dropWhile (fun d => d ≠ '"') =
        ((c :: t).drop 5).drop (((c :: t).drop 5).takeWhile (fun d => d ≠ '"')).length := by
      have h1 := List.takeWhile_append_dropWhile (fun d => decide (d ≠ '"')) ((c :: t).drop 5)
      exact List.append_cancel_left (h1.trans hsplit.symm)
    obtain ⟨d, w, hdw2⟩ : ∃ d w,
        ((c :: t).drop 5).drop (((c :: t).drop 5).takeWhile (fun d => d ≠ '"')).length = d :: w := by
      cases hcase : ((c :: t).drop 5).drop
          (((c :: t).drop 5).takeWhile (fun d => d ≠ '"')).length with
      | nil => exact absurd hcase hcl
      | cons d w => exact ⟨d, w, rfl⟩
    have hdq : d = '"' := by
      have hh := List.head?_dropWhile_not (fun d => decide (d ≠ '"')) ((c :: t).drop 5)
      rw [hdw, hdw2] at hh
      simpa using hh
    subst hdq
    have hq : ∀ x ∈ (c :: t).drop 5 |>.takeWhile (fun d => d ≠ '"'), x ≠ '"' := by
      intro x hx
      simpa using List.mem_takeWhile_imp hx
    have hsplit2 : ((c :: t).drop 5).takeWhile (fun d => d ≠ '"') ++ '"' :: w =
        (c :: t).drop 5 := by
      rw [← hdw2]
      exact hsplit
    have hshape : c :: t = uriPrefix ++ ((c :: t).drop 5).takeWhile (fun d => d ≠ '"') ++ '"' :: w := by
      conv_lhs => rw [← List.take_append_drop 5 (c :: t)]
      rw [h5, List.append_assoc]
      congr 1
      exact hsplit2.symm
    refine ⟨((c :: t).drop 5).takeWhile (fun d => d ≠ '"'), w, hv, hq, hshape, ?_⟩
    conv_lhs => rw [hshape]
    exact scanUri_eq_match hv hq
  · right
    exact ⟨c, t, rfl, scanUri_eq_copy hm, hm⟩

/-- The first five characters survive `scanUri` unchanged (a replacement block
starts with the same `URI="` prefix the source had). -/
theorem scanUri_take (b : String) : ∀ (n : Nat) (l : List Char), l.length ≤ n →
    ∀ k, k ≤ 5 → (scanUri b l).take k = l.take k := by
  intro n
  induction n with
  | zero =>
    intro l hle k _
    have h0 : l = [] := List.length_eq_zero.mp (Nat.le_zero.mp hle)
    subst h0
    rw [scanUri_nil]
  | succ n ih =>
    intro l hle k hk
    by_cases hl : l = []
    · subst hl
      rw [scanUri_nil]
    rcases scanUri_cases b l hl with ⟨v, w, hv, hq, hshape, heq⟩ | ⟨c, t, hshape, heq, _⟩
    · have hk5 : k ≤ uriPrefix.length := by
        simp only [uriPrefix, List.length_cons, List.length_nil]
        omega
      rw [heq]
      conv_rhs => rw [hshape]
      rw [List.append_assoc, List.append_assoc, List.take_append_of_le_length hk5,
        List.take_append_of_le_length hk5]
    · rw [heq, hshape]
      cases k with
      | zero => simp
      | succ j =>
        rw [List.take_succ_cons, List.take_succ_cons]
        have hlen : t.length ≤ n := by
          rw [hshape] at hle
          simp only [List.length_cons] at hle
          omega
        rw [ih t hlen j (by omega)]

theorem scanUri_ne_nil {b : String} {l : List Char} (hl : l ≠ []) : scanUri b l ≠ [] := by
  rcases scanUri_cases b l hl with ⟨v, w, _, _, _, heq⟩ | ⟨c, t, _, heq, _⟩
  · rw [heq]
    simp [uriPrefix]
  · rw [heq]
    exact List.cons_ne_nil _ _

theorem scanUri_head (b : String) (l : List Char) : (scanUri b l).head? = l.head? := by
  by_cases hl : l = []
  · subst hl
    rw [scanUri_nil]
  · exact head?_eq_of_take_one (scanUri_take b l.length l le_rfl 1 (by omega))

/-- `scanUri` introduces no newline when the input has none. -/
theorem scanUri_no_nl_aux (b : String) : ∀ (n : Nat) (l : List Char), l.length ≤ n →
    (∀ c ∈ l, c ≠ '\n') → ∀ c ∈ scanUri b l, c ≠ '\n' := by
  intro n
  induction n with
  | zero =>
    intro l hle _ c hc
    have h0 : l = [] := List.length_eq_zero.mp (Nat.le_zero.mp hle)
    subst h0
    rw [scanUri_nil] at hc
    simp at hc
  | succ n ih =>
    intro l hle hnl c hc
    by_cases hl : l = []
    · subst hl
      rw [scanUri_nil] at hc
      simp at hc
    rcases scanUri_cases b l hl with ⟨v, w, hv, hq, hshape, heq⟩ | ⟨d, t, hshape, heq, _⟩
    · rw [heq] at hc
      rcases List.mem_append.mp hc with hc | hc
      · rcases List.mem_append.mp hc with hc | hc
        · intro he
          subst he
          revert hc
          decide
        · have hvl : ∀ x ∈ (String.mk v).data, x ≠ '\n' := by
            intro x hx
            apply hnl x
            rw [hshape]
            exact List.mem_append.mpr (Or.inl (List.mem_append.mpr (Or.inr hx)))
          exact resolveUrl_no_nl hvl c hc
      · rcases List.mem_cons.mp hc with rfl | hc
        · decide
        · apply ih w ?_ ?_ c hc
          · rw [hshape] at hle
            simp only [List.length_append, List.length_cons, uriPrefix, List.length_nil] at hle
            omega
          · intro x hx
            apply hnl x
            rw [hshape]
            exact List.mem_append.mpr (Or.inr (List.mem_cons_of_mem _ hx))
    · rw [heq] at hc
      rcases List.mem_cons.mp hc with rfl | hc
      · apply hnl
        rw [hshape]
        exact List.mem_cons_self _ _
      · apply ih t ?_ ?_ c hc
        · rw [hshape] at hle
          simp only [List.length_cons] at hle
          omega
        · intro x hx
          apply hnl x
          rw [hshape]
          exact List.mem_cons_of_mem _ hx

theorem scanUri_no_nl {b : String} {l : List Char} (h : ∀ c ∈ l, c ≠ '\n') :
    ∀ c ∈ scanUri b l, c ≠ '\n' :=
  scanUri_no_nl_aux b l.length l le_rfl h

/-- The last character of a `scanUri` output is the input's last character or a
closing quote. -/
theorem scanUri_getLast_aux (b : String) : ∀ (n : Nat) (l : List Char), l.length ≤ n → l ≠ [] →
    (scanUri b l).getLast? = l.getLast? ∨ (scanUri b l).getLast? = some '"' := by
  intro n
  induction n with
  | zero =>
    intro l hle hl
    exact absurd (List.length_eq_zero.mp (Nat.le_zero.mp hle)) hl
  | succ n ih =>
    intro l hle hl
    rcases scanUri_cases b l hl with ⟨v, w, hv, hq, hshape, heq⟩ | ⟨c, t, hshape, heq, _⟩
    · by_cases hw : w = []
      · subst hw
        right
        rw [heq, scanUri_nil]
        rw [show uriPrefix ++ (resolveUrl b (String.mk v)).data ++ ['"'] =
          (uriPrefix ++ (resolveUrl b (String.mk v)).data) ++ ['"'] from rfl]
        exact List.getLast?_concat _
      · have hlast1 : (scanUri b l).getLast? = (scanUri b w).getLast? := by
          rw [heq, show uriPrefix ++ (resolveUrl b (String.mk v)).data ++ '"' :: scanUri b w =
            (uriPrefix ++ (resolveUrl b (String.mk v)).data ++ ['"']) ++ scanUri b w by simp]
          exact getLast?_append_right (scanUri_ne_nil hw)
        have hlast2 : l.getLast? = w.getLast? := by
          rw [hshape, show uriPrefix ++ v ++ '"' :: w = (uriPrefix ++ v ++ ['"']) ++ w by simp]
          exact getLast?_append_right hw
        have hwlen : w.length ≤ n := by
          rw [hshape] at hle
          simp only [List.length_append, List.length_cons, uriPrefix, List.length_nil] at hle
          omega
        rw [hlast1, hlast2]
        exact ih w hwlen hw
    · by_cases ht : t = []
      · subst ht
        left
        rw [heq, scanUri_nil, hshape]
      · have hlast1 : (scanUri b l).getLast? = (scanUri b t).getLast? := by
          rw [heq, show c :: scanUri b t = [c] ++ scanUri b t from rfl]
          exact getLast?_append_right (scanUri_ne_nil ht)
        have hlast2 : l.getLast? = t.getLast? := by
          rw [hshape, show c :: t = [c] ++ t from rfl]
          exact getLast?_append_right ht
        have htlen : t.length ≤ n := by
          rw [hshape] at hle
          simp only [List.length_cons] at hle
          omega
        rw [hlast1, hlast2]
        exact ih t htlen ht

theorem scanUri_getLast {b : String} {l : List Char} (hl : l ≠ []) :
    (scanUri b l).getLast? = l.getLast? ∨ (scanUri b l).getLast? = some '"' :=
  scanUri_getLast_aux b l.length l le_rfl hl

/-- `scanUri` copies any prefix free of `U` verbatim. -/
theorem scanUri_prefix_no_U {b : String} : ∀ {p : List Char}, (∀ c ∈ p, c ≠ 'U') →
    ∀ y, scanUri b (p ++ y) = p ++ scanUri b y := by
  intro p
  induction p with
  | nil =>
    intro _ y
    simp
  | cons c t ih =>
    intro h y
    rw [List.cons_append, scanUri_cons_ne_U _ (h c (List.mem_cons_self _ _)),
      ih (fun d hd => h d (List.mem_cons_of_mem _ hd)) y, List.cons_append]

/-- `scanUri` is idempotent: rescanning a rewritten line changes nothing. -/
theorem scanUri_idem_aux (b : String) : ∀ (n : Nat) (l : List Char), l.length ≤ n →
    scanUri b (scanUri b l) = scanUri b l := by
  intro n
  induction n with
  | zero =>
    intro l hle
    have h0 : l = [] := List.length_eq_zero.mp (Nat.le_zero.mp hle)
    subst h0
    rw [scanUri_nil, scanUri_nil]
  | succ n ih =>
    intro l hle
    by_cases hl : l = []
    · subst hl
      rw [scanUri_nil, scanUri_nil]
    rcases scanUri_cases b l hl with ⟨v, w, hv, hq, hshape, heq⟩ | ⟨c, t, hshape, heq, hm⟩
    · -- replacement case: the rewritten block rescans to itself
      have hrq : ∀ x ∈ (resolveUrl b (String.mk v)).data, x ≠ '"' :=
        resolveUrl_no_quote hq
      have hrne : (resolveUrl b (String.mk v)).data ≠ [] := by
        intro h0
        have h1 : String.mk v ≠ "" := by
          intro hmk
          exact hv (by simpa using congrArg String.data hmk)
        exact resolveUrl_ne_empty h1 (str_eq_empty_iff.mpr h0)
      have hwlen : w.length ≤ n := by
        rw [hshape] at hle
        simp only [List.length_append, List.length_cons, uriPrefix, List.length_nil] at hle
        omega
      have hrr : (resolveUrl b (String.mk ((resolveUrl b (String.mk v)).data))).data =
          (resolveUrl b (String.mk v)).data := by
        rw [show String.mk ((resolveUrl b (String.mk v)).data) = resolveUrl b (String.mk v)
          from rfl, resolveUrl_idem]
      rw [heq, scanUri_eq_match hrne hrq, hrr, ih w hwlen]
    · -- copy case
      have htlen : t.length ≤ n := by
        rw [hshape] at hle
        simp only [List.length_cons] at hle
        omega
      rw [heq]
      by_cases h5 : (c :: t).take 5 = uriPrefix
      · -- the prefix matched but the value/closing-quote condition failed
        have hfail : ¬(((c :: t).drop 5).takeWhile (fun d => d ≠ '"') ≠ [] ∧
            ((c :: t).drop 5).drop
              (((c :: t).drop 5).takeWhile (fun d => d ≠ '"')).length ≠ []) :=
          fun hqr => hm ⟨h5, hqr.1, hqr.2⟩
        rw [show (5 : Nat) = 4 + 1 from rfl, List.take_succ_cons] at h5
        have hcU : c = 'U' := by
          have := congrArg List.head? h5
          simpa [uriPrefix] using this
        have ht4 : t.take 4 = ['R', 'I', '=', '"'] := by
          have := congrArg List.tail h5
          simpa [uriPrefix] using this
        have htshape : t = 'R' :: 'I' :: '=' :: '"' :: t.drop 4 := by
          conv_lhs => rw [← List.take_append_drop 4 t]
          rw [ht4]
          rfl
        have hOt : scanUri b t = 'R' :: 'I' :: '=' :: '"' :: scanUri b (t.drop 4) := by
          conv_lhs => rw [htshape]
          rw [scanUri_cons_ne_U _ (by decide), scanUri_cons_ne_U _ (by decide),
            scanUri_cons_ne_U _ (by decide), scanUri_cons_ne_U _ (by decide)]
        have hdrop5 : (c :: t).drop 5 = t.drop 4 := by
          rw [show (5 : Nat) = 4 + 1 from rfl, List.drop_succ_cons]
        rw [hdrop5] at hfail
        have hafter2 : (c :: scanUri b t).drop 5 = scanUri b (t.drop 4) := by
          rw [hOt, show (5 : Nat) = 4 + 1 from rfl, List.drop_succ_cons]
          rfl
        -- the failure persists on the rewritten tail
        have hfail2 : ¬(((c :: scanUri b t).drop 5).takeWhile (fun d => d ≠ '"') ≠ [] ∧
            ((c :: scanUri b t).drop 5).drop
              (((c :: scanUri b t).drop 5).takeWhile (fun d => d ≠ '"')).length ≠ []) := by
          rw [hafter2]
          by_cases hv0 : (t.drop 4).takeWhile (fun d => d ≠ '"') = []
          · -- the value was empty: the rewritten tail still starts with a quote (or ends)
            have hnil : (scanUri b (t.drop 4)).takeWhile (fun d => d ≠ '"') = [] := by
              apply takeWhile_eq_nil_of_head
              intro x hx
              rw [scanUri_head] at hx
              exact head_not_of_takeWhile_nil hv0 x hx
            intro hqr
            exact hqr.1 hnil
          · -- no closing quote: the whole remainder is quote-free and fixed by the scan
            have hdropnil : (t.drop 4).drop
                ((t.drop 4).takeWhile (fun d => d ≠ '"')).length = [] := by
              by_contra hne
              exact hfail ⟨hv0, hne⟩
            have hlen : (t.drop 4).length ≤ ((t.drop 4).takeWhile (fun d => d ≠ '"')).length :=
              List.drop_eq_nil_iff.mp hdropnil
            have hveq : (t.drop 4).takeWhile (fun d => d ≠ '"') = t.drop 4 :=
              (List.takeWhile_prefix _).eq_of_length
                (Nat.le_antisymm ((List.takeWhile_prefix _).length_le) hlen)
            have hqf : ∀ x ∈ t.drop 4, x ≠ '"' := by
              intro x hx
              rw [← hveq] at hx
              simpa using List.mem_takeWhile_imp hx
            have hscan : scanUri b (t.drop 4) = t.drop 4 := scanUri_quote_free hqf
            rw [hscan]
            intro hqr
            exact hqr.2 (by rw [hveq]; exact List.drop_eq_nil_iff.mpr le_rfl)
        rw [scanUri_eq_copy (fun hcon => hfail2 ⟨hcon.2.1, hcon.2.2⟩), ih t htlen]
      · -- the five-character prefix did not match, and still does not
        have h5' : (c :: scanUri b t).take 5 = (c :: t).take 5 := by
          rw [show (5 : Nat) = 4 + 1 from rfl, List.take_succ_cons, List.take_succ_cons,
            scanUri_take b t.length t le_rfl 4 (by omega)]
        rw [scanUri_eq_copy (fun hcon => h5 (h5'.symm.trans hcon.1)), ih t htlen]

theorem scanUri_idem (b : String) (l : List Char) :
    scanUri b (scanUri b l) = scanUri b l :=
  scanUri_idem_aux b l.length l le_rfl

/-! ## `split(/\r?\n/)` / `join("\n")` round trip -/

/-- Guarded unfolding of `splitRN` at a non-separator head character. -/
theorem splitRN_cons {c : Char} {rest : List Char}
    (h1 : ∀ rest1, c = '\r' → rest = '\n' :: rest1 → False)
    (h2 : c = '\n' → False) :
    splitRN (c :: rest) =
      match splitRN rest with
      | [] => [[c]]
      | h :: t => (c :: h) :: t := by
  rw [splitRN]
  · exact h1
  · exact h2

theorem splitRN_ne_nil : ∀ (l : List Char), splitRN l ≠ [] := by
  intro l
  induction l using splitRN.induct with
  | case1 => simp [splitRN]
  | case2 rest ih => simp [splitRN]
  | case3 rest ih => simp [splitRN]
  | case4 c rest h1 h2 heq ih =>
    rw [splitRN_cons h1 h2, heq]
    simp
  | case5 c rest h1 h2 h t heq ih =>
    rw [splitRN_cons h1 h2, heq]
    simp

theorem splitRN_no_nl : ∀ (l : List Char), ∀ p ∈ splitRN l, ∀ c ∈ p, c ≠ '\n' := by
  intro l
  induction l using splitRN.induct with
  | case1 =>
    intro p hp
    simp only [splitRN, List.mem_singleton] at hp
    subst hp
    simp
  | case2 rest ih =>
    intro p hp
    rw [show splitRN ('\r' :: '\n' :: rest) = [] :: splitRN rest from rfl] at hp
    rcases List.mem_cons.mp hp with rfl | hp
    · simp
    · exact ih p hp
  | case3 rest ih =>
    intro p hp
    rw [show splitRN ('\n' :: rest) = [] :: splitRN rest from rfl] at hp
    rcases List.mem_cons.mp hp with rfl | hp
    · simp
    · exact ih p hp
  | case4 c rest h1 h2 heq ih =>
    intro p hp
    rw [splitRN_cons h1 h2, heq] at hp
    simp only [List.mem_singleton] at hp
    subst hp
    intro d hd
    rcases List.mem_singleton.mp hd with rfl
    exact fun hc => h2 hc
  | case5 c rest h1 h2 h t heq ih =>
    intro p hp
    rw [splitRN_cons h1 h2, heq] at hp
    rcases List.mem_cons.mp hp with rfl | hp
    · intro d hd
      rcases List.mem_cons.mp hd with rfl | hd
      · exact fun hc => h2 hc
      · exact ih h (by rw [heq]; exact List.mem_cons_self _ _) d hd
    · exact ih p (by rw [heq]; exact List.mem_cons_of_mem _ hp)

theorem splitRN_of_no_nl : ∀ {x : List Char}, (∀ c ∈ x, c ≠ '\n') → splitRN x = [x] := by
  intro x
  induction x with
  | nil => intro _; rfl
  | cons c rest ih =>
    intro h
    have h1 : ∀ r1, c = '\r' → rest = '\n' :: r1 → False := by
      intro r1 _ hr
      exact h '\n' (by rw [hr]; exact List.mem_cons_of_mem _ (List.mem_cons_self _ _)) rfl
    have h2 : c = '\n' → False := fun hc => h c (List.mem_cons_self _ _) hc
    rw [splitRN_cons h1 h2, ih (fun d hd => h d (List.mem_cons_of_mem _ hd))]

theorem getLast?_cons_cons {α : Type} (a b : α) (l : List α) :
    (a :: b :: l).getLast? = (b :: l).getLast? := by
  rw [show a :: b :: l = [a] ++ (b :: l) from rfl]
  exact getLast?_append_right (List.cons_ne_nil _ _)

theorem splitRN_append : ∀ {x : List Char}, (∀ c ∈ x, c ≠ '\n') →
    x.getLast? ≠ some '\r' → ∀ (z : List Char),
    splitRN (x ++ '\n' :: z) = x :: splitRN z := by
  intro x
  induction x with
  | nil =>
    intro _ _ z
    rfl
  | cons c rest ih =>
    intro hx hlast z
    have hcn : c = '\n' → False := fun hc => hx c (List.mem_cons_self _ _) hc
    cases rest with
    | nil =>
      have h1 : ∀ r1, c = '\r' → [] ++ '\n' :: z = '\n' :: r1 → False := by
        intro r1 hc _
        subst hc
        exact hlast rfl
      rw [List.cons_append, splitRN_cons h1 hcn]
      rw [show ([] : List Char) ++ '\n' :: z = '\n' :: z from rfl]
      rfl
    | cons d rest2 =>
      have hdn : d ≠ '\n' := fun hd => hx d (List.mem_cons_of_mem _ (List.mem_cons_self _ _)) hd
      have h1 : ∀ r1, c = '\r' → (d :: rest2) ++ '\n' :: z = '\n' :: r1 → False := by
        intro r1 _ habs
        rw [List.cons_append] at habs
        apply hdn
        have := congrArg List.head? habs
        simpa using this
      rw [List.cons_append, splitRN_cons h1 hcn,
        ih (fun e he => hx e (List.mem_cons_of_mem _ he))
          (by rw [getLast?_cons_cons] at hlast; exact hlast) z]

theorem splitRN_joinN : ∀ (pieces : List (List Char)), pieces ≠ [] →
    (∀ p ∈ pieces, (∀ c ∈ p, c ≠ '\n') ∧ p.getLast? ≠ some '\r') →
    splitRN (joinN pieces) = pieces := by
  intro pieces
  induction pieces with
  | nil => intro h _; exact absurd rfl h
  | cons x xs ih =>
    intro _ h
    cases xs with
    | nil =>
      rw [show joinN [x] = x from rfl]
      exact splitRN_of_no_nl (h x (List.mem_cons_self _ _)).1
    | cons y ys =>
      rw [show joinN (x :: y :: ys) = x ++ '\n' :: joinN (y :: ys) from rfl,
        splitRN_append (h x (List.mem_cons_self _ _)).1 (h x (List.mem_cons_self _ _)).2,
        ih (List.cons_ne_nil _ _) (fun p hp => h p (List.mem_cons_of_mem _ hp))]

theorem map_mk_data : ∀ (xs : List String), (xs.map String.data).map String.mk = xs := by
  intro xs
  induction xs with
  | nil => rfl
  | cons a t ih =>
    rw [List.map_cons, List.map_cons, ih]

theorem splitLines_joinLines {ls : List String} (hne : ls ≠ [])
    (h : ∀ l ∈ ls, (∀ c ∈ l.data, c ≠ '\n') ∧ l.data.getLast? ≠ some '\r') :
    splitLines (joinLines ls) = ls := by
  unfold splitLines joinLines
  rw [show (String.mk (joinN (ls.map String.data))).data = joinN (ls.map String.data) from rfl,
    splitRN_joinN (ls.map String.data) (by simpa using hne) ?_, map_mk_data]
  intro p hp
  obtain ⟨l, hl, rfl⟩ := List.mem_map.mp hp
  exact h l hl

/-! ## `processLine` lemmas -/

theorem processLine_eq (B raw : String) :
    processLine B raw =
      if jsTrim raw = "" then none
      else if shouldFilterTag (jsTrim raw) then none
      else if jsStartsWith (jsTrim raw) "#EXT-X-MAP:" || jsStartsWith (jsTrim raw) "#EXT-X-KEY:"
        then some (rewriteUriAttribute (jsTrim raw) B)
      else if jsStartsWith (jsTrim raw) "#" then some (jsTrim raw)
      else some (resolveUrl B (jsTrim raw)) := rfl

/-- Branch analysis of a successful `processLine` step. -/
theorem processLine_branches {B raw out : String} (h : processLine B raw = some out) :
    jsTrim raw ≠ "" ∧ shouldFilterTag (jsTrim raw) = false ∧
    (((jsStartsWith (jsTrim raw) "#EXT-X-MAP:" = true ∨
        jsStartsWith (jsTrim raw) "#EXT-X-KEY:" = true) ∧
      out = rewriteUriAttribute (jsTrim raw) B) ∨
     (jsStartsWith (jsTrim raw) "#EXT-X-MAP:" = false ∧
      jsStartsWith (jsTrim raw) "#EXT-X-KEY:" = false ∧
      jsStartsWith (jsTrim raw) "#" = true ∧ out = jsTrim raw) ∨
     (jsStartsWith (jsTrim raw) "#EXT-X-MAP:" = false ∧
      jsStartsWith (jsTrim raw) "#EXT-X-KEY:" = false ∧
      jsStartsWith (jsTrim raw) "#" = false ∧ out = resolveUrl B (jsTrim raw))) := by
  rw [processLine_eq] at h
  split at h
  · simp at h
  next hempty =>
    split at h
    next hfilt => simp at h
    next hfilt =>
      refine ⟨hempty, by simpa using hfilt, ?_⟩
      split at h
      next hmk =>
        exact Or.inl ⟨by simpa [Bool.or_eq_true] using hmk, (Option.some.inj h).symm⟩
      next hmk =>
        have hmk2 := hmk
        simp only [Bool.or_eq_true, not_or, Bool.not_eq_true] at hmk2
        split at h
        next hhash =>
          exact Or.inr (Or.inl ⟨hmk2.1, hmk2.2, hhash, (Option.some.inj h).symm⟩)
        next hhash =>
          exact Or.inr (Or.inr ⟨hmk2.1, hmk2.2, by simpa using hhash, (Option.some.inj h).symm⟩)

theorem listPrefixOf_cons_iff {c d : Char} {cs ds : List Char} :
    listPrefixOf (c :: cs) (d :: ds) = true ↔ c = d ∧ listPrefixOf cs ds = true := by
  simp [listPrefixOf]

theorem listPrefixOf_trans : ∀ {a b c : List Char}, listPrefixOf a b = true →
    listPrefixOf b c = true → listPrefixOf a c = true := by
  intro a
  induction a with
  | nil => intro b c _ _; rfl
  | cons x xs ih =>
    intro b c hab hbc
    cases b with
    | nil => exact absurd hab (by simp [listPrefixOf])
    | cons y ys =>
      obtain ⟨rfl, hab2⟩ := listPrefixOf_cons_iff.mp hab
      cases c with
      | nil => exact absurd hbc (by simp [listPrefixOf])
      | cons z zs =>
        obtain ⟨rfl, hbc2⟩ := listPrefixOf_cons_iff.mp hbc
        exact listPrefixOf_cons_iff.mpr ⟨rfl, ih hab2 hbc2⟩

theorem listPrefixOf_total : ∀ {l a b : List Char}, listPrefixOf a l = true →
    listPrefixOf b l = true → listPrefixOf a b = true ∨ listPrefixOf b a = true := by
  intro l
  induction l with
  | nil =>
    intro a b ha _
    cases a with
    | nil => exact Or.inl rfl
    | cons x xs => exact absurd ha (by simp [listPrefixOf])
  | cons z zs ih =>
    intro a b ha hb
    cases a with
    | nil => exact Or.inl rfl
    | cons x xs =>
      cases b with
      | nil => exact Or.inr rfl
      | cons y ys =>
        obtain ⟨rfl, ha2⟩ := listPrefixOf_cons_iff.mp ha
        obtain ⟨rfl, hb2⟩ := listPrefixOf_cons_iff.mp hb
        rcases ih ha2 hb2 with hc | hc
        · exact Or.inl (listPrefixOf_cons_iff.mpr ⟨rfl, hc⟩)
        · exact Or.inr (listPrefixOf_cons_iff.mpr ⟨rfl, hc⟩)

theorem listPrefixOf_iff_append : ∀ {p l : List Char},
    listPrefixOf p l = true ↔ ∃ r, l = p ++ r := by
  intro p
  induction p with
  | nil =>
    intro l
    simp [listPrefixOf]
  | cons c cs ih =>
    intro l
    cases l with
    | nil =>
      simp [listPrefixOf]
    | cons d ds =>
      rw [listPrefixOf_cons_iff, ih]
      constructor
      · rintro ⟨rfl, r, rfl⟩
        exact ⟨r, rfl⟩
      · rintro ⟨r, hr⟩
        rw [List.cons_append] at hr
        injection hr with h1 h2
        exact ⟨h1.symm, r, h2⟩

theorem listPrefixOf_append_self : ∀ (p r : List Char), listPrefixOf p (p ++ r) = true := by
  intro p r
  exact listPrefixOf_iff_append.mpr ⟨r, rfl⟩

/-- Every ad-marker tag starts with `#`, so a marker-prefixed line does too. -/
theorem marker_starts_hash {l : String} (h : shouldFilterTag l = true) :
    jsStartsWith l "#" = true := by
  unfold shouldFilterTag AD_MARKER_TAGS at h
  simp only [List.any_cons, List.any_nil, Bool.or_eq_true, Bool.or_false] at h
  unfold jsStartsWith at h ⊢
  rcases h with h | h | h | h | h <;>
    exact listPrefixOf_trans (by decide) h

/-- No ad-marker tag is prefix-compatible with the init-section/key tags. -/
theorem marker_vs_map_key :
    ∀ t ∈ AD_MARKER_TAGS,
      (listPrefixOf t.data "#EXT-X-MAP:".data = false ∧
       listPrefixOf "#EXT-X-MAP:".data t.data = false) ∧
      (listPrefixOf t.data "#EXT-X-KEY:".data = false ∧
       listPrefixOf "#EXT-X-KEY:".data t.data = false) := by
  decide

theorem normLine_last_not_cr {l : String} (h : NormLine l) : l.data.getLast? ≠ some '\r' := by
  obtain ⟨_, htrim, _⟩ := h
  intro hlast
  have hdata : trimChars l.data = l.data := congrArg String.data htrim
  have h2 := trimChars_last_not_ws (l := l.data) (c := '\r') (by rw [hdata]; exact hlast)
  exact absurd h2 (by decide)

/-- Every line emitted by `processLine` is non-empty, trim-fixed and
newline-free (given a newline-free input line, as `split` produces). -/
theorem processLine_norm {B raw out : String} (hraw : ∀ c ∈ raw.data, c ≠ '\n')
    (h : processLine B raw = some out) : NormLine out := by
  obtain ⟨hne, hfilt, hbr⟩ := processLine_branches h
  have htrim : jsTrim (jsTrim raw) = jsTrim raw := jsTrim_idem raw
  have hnl : ∀ c ∈ (jsTrim raw).data, c ≠ '\n' := fun c hc => hraw c (mem_trimChars hc)
  have hdne : (jsTrim raw).data ≠ [] := fun h0 => hne (str_eq_empty_iff.mpr h0)
  rcases hbr with ⟨hcond, rfl⟩ | ⟨_, _, _, rfl⟩ | ⟨_, _, _, rfl⟩
  · refine ⟨?_, ?_, ?_⟩
    · intro h0
      exact scanUri_ne_nil hdne (str_eq_empty_iff.mp h0)
    · show String.mk (trimChars (scanUri B (jsTrim raw).data)) =
        String.mk (scanUri B (jsTrim raw).data)
      apply congrArg String.mk
      apply trimChars_eq_self_of_ends
      · intro c hc
        rw [scanUri_head] at hc
        exact trimChars_head_not_ws (l := raw.data) hc
      · intro c hc
        rcases scanUri_getLast hdne with he | he
        · rw [he] at hc
          exact trimChars_last_not_ws (l := raw.data) hc
        · rw [he] at hc
          injection hc with hc
          subst hc
          decide
    · intro c hc
      exact scanUri_no_nl hnl c hc
  · exact ⟨hne, htrim, hnl⟩
  · exact ⟨resolveUrl_ne_empty hne, resolveUrl_trim htrim, resolveUrl_no_nl hnl⟩

/-- `processLine` never emits an ad-marker line. -/
theorem processLine_no_marker {B raw out : String} (h : processLine B raw = some out) :
    shouldFilterTag out = false := by
  obtain ⟨hne, hfilt, hbr⟩ := processLine_branches h
  rcases hbr with ⟨hcond, rfl⟩ | ⟨_, _, _, rfl⟩ | ⟨_, _, hhash, rfl⟩
  · by_contra hmark
    have hmark2 : shouldFilterTag (rewriteUriAttribute (jsTrim raw) B) = true := by
      simpa using hmark
    unfold shouldFilterTag AD_MARKER_TAGS at hmark2
    simp only [List.any_cons, List.any_nil, Bool.or_eq_true, Bool.or_false] at hmark2
    rcases hcond with hp | hp
    · obtain ⟨r, hr⟩ := listPrefixOf_iff_append.mp hp
      have hself : listPrefixOf "#EXT-X-MAP:".data
          (rewriteUriAttribute (jsTrim raw) B).data = true := by
        rw [show (rewriteUriAttribute (jsTrim raw) B).data = scanUri B (jsTrim raw).data
          from rfl, hr, scanUri_prefix_no_U (by decide) r]
        exact listPrefixOf_append_self _ _
      rcases hmark2 with h5 | h5 | h5 | h5 | h5 <;>
        rcases listPrefixOf_total h5 hself with hz | hz <;>
          exact absurd hz (by decide)
    · obtain ⟨r, hr⟩ := listPrefixOf_iff_append.mp hp
      have hself : listPrefixOf "#EXT-X-KEY:".data
          (rewriteUriAttribute (jsTrim raw) B).data = true := by
        rw [show (rewriteUriAttribute (jsTrim raw) B).data = scanUri B (jsTrim raw).data
          from rfl, hr, scanUri_prefix_no_U (by decide) r]
        exact listPrefixOf_append_self _ _
      rcases hmark2 with h5 | h5 | h5 | h5 | h5 <;>
        rcases listPrefixOf_total h5 hself with hz | hz <;>
          exact absurd hz (by decide)
  · exact hfilt
  · by_contra hmark
    have h1 : jsStartsWith (resolveUrl B (jsTrim raw)) "#" = true :=
      marker_starts_hash (by simpa using hmark)
    exact resolveUrl_not_hash (by simp [hhash]) h1

/-- A line emitted by `processLine` is a fixpoint of `processLine`. -/
theorem processLine_stable {B raw out : String} (hraw : ∀ c ∈ raw.data, c ≠ '\n')
    (h : processLine B raw = some out) : processLine B out = some out := by
  obtain ⟨hone, htrimo, _⟩ := processLine_norm hraw h
  have hmark := processLine_no_marker h
  obtain ⟨hne, hfilt, hbr⟩ := processLine_branches h
  rw [processLine_eq, htrimo, if_neg hone, if_neg (by rw [hmark]; simp)]
  rcases hbr with ⟨hcond, rfl⟩ | ⟨hm1, hm2, hhash, rfl⟩ | ⟨hm1, hm2, hhash, rfl⟩
  · have hcond2 : jsStartsWith (rewriteUriAttribute (jsTrim raw) B) "#EXT-X-MAP:" = true ∨
        jsStartsWith (rewriteUriAttribute (jsTrim raw) B) "#EXT-X-KEY:" = true := by
      rcases hcond with hp | hp
      · left
        obtain ⟨r, hr⟩ := listPrefixOf_iff_append.mp hp
        show listPrefixOf "#EXT-X-MAP:".data (rewriteUriAttribute (jsTrim raw) B).data = true
        rw [show (rewriteUriAttribute (jsTrim raw) B).data = scanUri B (jsTrim raw).data
          from rfl, hr, scanUri_prefix_no_U (by decide) r]
        exact listPrefixOf_append_self _ _
      · right
        obtain ⟨r, hr⟩ := listPrefixOf_iff_append.mp hp
        show listPrefixOf "#EXT-X-KEY:".data (rewriteUriAttribute (jsTrim raw) B).data = true
        rw [show (rewriteUriAttribute (jsTrim raw) B).data = scanUri B (jsTrim raw).data
          from rfl, hr, scanUri_prefix_no_U (by decide) r]
        exact listPrefixOf_append_self _ _
    rw [if_pos (by rcases hcond2 with hp | hp <;> simp [hp])]
    show some (String.mk (scanUri B (String.mk (scanUri B (jsTrim raw).data)).data)) = _
    rw [show (String.mk (scanUri B (jsTrim raw).data)).data = scanUri B (jsTrim raw).data
      from rfl, scanUri_idem]
    rfl
  · rw [if_neg (by rw [hm1, hm2]; simp), if_pos hhash]
  · have hnh : ¬jsStartsWith (resolveUrl B (jsTrim raw)) "#" = true :=
      resolveUrl_not_hash (by simp [hhash])
    have hsub : ∀ t : String, listPrefixOf "#".data t.data = true →
        jsStartsWith (resolveUrl B (jsTrim raw)) t = true → False := fun t hht hx =>
      hnh (listPrefixOf_trans hht hx)
    have hm1' : jsStartsWith (resolveUrl B (jsTrim raw)) "#EXT-X-MAP:" = false := by
      by_contra hx
      exact hsub "#EXT-X-MAP:" (by decide) (by simpa using hx)
    have hm2' : jsStartsWith (resolveUrl B (jsTrim raw)) "#EXT-X-KEY:" = false := by
      by_contra hx
      exact hsub "#EXT-X-KEY:" (by decide) (by simpa using hx)
    rw [if_neg (by rw [hm1', hm2']; simp), if_neg hnh, resolveUrl_idem]

/-! ## Pipeline assembly for `filterAndNormalizeMediaPlaylist` -/

theorem ensureHeader_nil : ensureHeader [] = ["#EXTM3U"] := rfl

theorem ensureHeader_cons (l : String) (t : List String) :
    ensureHeader (l :: t) =
      if jsStartsWith l "#EXTM3U" = true then l :: t else "#EXTM3U" :: l :: t := rfl

theorem ensureHeader_ne_nil (L : List String) : ensureHeader L ≠ [] := by
  cases L with
  | nil => rw [ensureHeader_nil]; simp
  | cons l t =>
    rw [ensureHeader_cons]
    by_cases h : jsStartsWith l "#EXTM3U" = true
    · rw [if_pos h]
      simp
    · rw [if_neg h]
      simp

theorem mem_ensureHeader {l : String} {L : List String} (h : l ∈ ensureHeader L) :
    l = "#EXTM3U" ∨ l ∈ L := by
  cases L with
  | nil =>
    rw [ensureHeader_nil] at h
    simp at h
    exact Or.inl h
  | cons x t =>
    rw [ensureHeader_cons] at h
    by_cases hx : jsStartsWith x "#EXTM3U" = true
    · rw [if_pos hx] at h
      exact Or.inr h
    · rw [if_neg hx] at h
      rcases List.mem_cons.mp h with rfl | h
      · exact Or.inl rfl
      · exact Or.inr h

theorem ensureHeader_shape (L : List String) :
    ∃ h t, ensureHeader L = h :: t ∧ jsStartsWith h "#EXTM3U" = true := by
  cases L with
  | nil => exact ⟨"#EXTM3U", [], rfl, by decide⟩
  | cons x t =>
    rw [ensureHeader_cons]
    by_cases hx : jsStartsWith x "#EXTM3U" = true
    · rw [if_pos hx]
      exact ⟨x, t, rfl, hx⟩
    · rw [if_neg hx]
      exact ⟨"#EXTM3U", x :: t, rfl, by decide⟩

theorem ensureHeader_idem (L : List String) :
    ensureHeader (ensureHeader L) = ensureHeader L := by
  obtain ⟨h, t, heq, hh⟩ := ensureHeader_shape L
  rw [heq, ensureHeader_cons, if_pos hh]

/-- The header line is itself a normalized, marker-free, `processLine`-stable
line (for any base URL). -/
theorem header_line_facts (B : String) :
    NormLine "#EXTM3U" ∧ shouldFilterTag "#EXTM3U" = false ∧
    processLine B "#EXTM3U" = some "#EXTM3U" := by
  refine ⟨⟨by decide, by decide, by decide⟩, by decide, rfl⟩

/-- Raw lines produced by `split(/\r?\n/)` contain no newline. -/
theorem splitLines_no_nl {P raw : String} (h : raw ∈ splitLines P) :
    ∀ c ∈ raw.data, c ≠ '\n' := by
  unfold splitLines at h
  obtain ⟨p, hp, rfl⟩ := List.mem_map.mp h
  exact splitRN_no_nl P.data p hp

/-- Every line of the normalized output list is well-shaped, marker-free and
stable under a second `processLine` pass. -/
theorem output_line_facts {P B l : String}
    (h : l ∈ ensureHeader ((splitLines P).filterMap (processLine B))) :
    NormLine l ∧ shouldFilterTag l = false ∧ processLine B l = some l := by
  rcases mem_ensureHeader h with rfl | h2
  · exact header_line_facts B
  · obtain ⟨raw, hraw, hpl⟩ := List.mem_filterMap.mp h2
    have hnl := splitLines_no_nl hraw
    exact ⟨processLine_norm hnl hpl, processLine_no_marker hpl, processLine_stable hnl hpl⟩

/-- Splitting the serialized output recovers exactly the normalized line list. -/
theorem filter_output_lines (P B : String) :
    splitLines (filterAndNormalizeMediaPlaylist P B) =
      ensureHeader ((splitLines P).filterMap (processLine B)) := by
  unfold filterAndNormalizeMediaPlaylist
  apply splitLines_joinLines (ensureHeader_ne_nil _)
  intro l hl
  have hfacts := output_line_facts hl
  exact ⟨hfacts.1.2.2, normLine_last_not_cr hfacts.1⟩

theorem filterMap_id_of {α : Type} {f : α → Option α} :
    ∀ {L : List α}, (∀ l ∈ L, f l = some l) → L.filterMap f = L := by
  intro L
  induction L with
  | nil => intro _; rfl
  | cons x t ih =>
    intro h
    rw [List.filterMap_cons, h x (List.mem_cons_self _ _),
      ih (fun l hl => h l (List.mem_cons_of_mem _ hl))]

theorem joinLines_starts (h : String) (t : List String) :
    listPrefixOf h.data (joinLines (h :: t)).data = true := by
  show listPrefixOf h.data (joinN (h.data :: t.map String.data)) = true
  cases ht : t.map String.data with
  | nil =>
    rw [show joinN [h.data] = h.data from rfl]
    exact listPrefixOf_iff_append.mpr ⟨[], by simp⟩
  | cons x xs =>
    rw [show joinN (h.data :: x :: xs) = h.data ++ '\n' :: joinN (x :: xs) from rfl]
    exact listPrefixOf_append_self _ _

/-- C8: `filterAndNormalizeMediaPlaylist` is idempotent: filtering an
already-filtered playlist (with the same base URL) returns it unchanged — no
further lines are removed or altered. -/
theorem C8_filter_idempotent (P B : String) :
    filterAndNormalizeMediaPlaylist (filterAndNormalizeMediaPlaylist P B) B =
      filterAndNormalizeMediaPlaylist P B := by
  conv_lhs => rw [filterAndNormalizeMediaPlaylist]
  rw [filter_output_lines P B,
    filterMap_id_of (fun l hl => (output_line_facts hl).2.2), ensureHeader_idem]
  rfl

/-- C2 counterexample: a blank line of the input is a non-marker line, yet it
is dropped from the output, so the output is not "exactly the non-marker lines
of P in their original order". -/
theorem C2_counterexample :
    (splitLines "#EXTM3U\n\n#A").filter (fun l => !shouldFilterTag l) =
      ["#EXTM3U", "", "#A"] ∧
    splitLines (filterAndNormalizeMediaPlaylist "#EXTM3U\n\n#A" "http://h/p.m3u8") =
      ["#EXTM3U", "#A"] := by
  constructor
  · rfl
  · rfl

/-- C2 (amended): the output lines of `filterAndNormalizeMediaPlaylist` are
exactly the header-completed list of the trimmed, non-blank, non-marker lines
of `P`, each transformed (`URI="..."` rewriting on key/init-section tags, other
tag lines kept, bare lines resolved against the base); the output contains no
ad-marker line and always begins with `#EXTM3U`. -/
theorem C2_filter_normalize (P B : String) :
    splitLines (filterAndNormalizeMediaPlaylist P B) =
      ensureHeader ((splitLines P).filterMap (processLine B)) ∧
    (∀ l ∈ splitLines (filterAndNormalizeMediaPlaylist P B), shouldFilterTag l = false) ∧
    jsStartsWith (filterAndNormalizeMediaPlaylist P B) "#EXTM3U" = true := by
  refine ⟨filter_output_lines P B, ?_, ?_⟩
  · intro l hl
    rw [filter_output_lines P B] at hl
    exact (output_line_facts hl).2.1
  · obtain ⟨h, t, heq, hh⟩ := ensureHeader_shape ((splitLines P).filterMap (processLine B))
    show jsStartsWith
      (joinLines (ensureHeader ((splitLines P).filterMap (processLine B)))) "#EXTM3U" = true
    rw [heq]
    exact listPrefixOf_trans hh (joinLines_starts h t)

theorem C2_filter_normalize_witness :
    shouldFilterTag "#EXTINF:4," = false ∧
    jsStartsWith (filterAndNormalizeMediaPlaylist "#EXT-X-DISCONTINUITY\n#EXTINF:4," "u")
      "#EXTM3U" = true :=
  ⟨(C2_filter_normalize "#EXT-X-DISCONTINUITY\n#EXTINF:4," "u").2.1 "#EXTINF:4," (by decide),
   (C2_filter_normalize "#EXT-X-DISCONTINUITY\n#EXTINF:4," "u").2.2⟩

/-- C10: the output of `filterAndNormalizeMediaPlaylist` contains no blank
line, and every output line is fixed under `trim()`. -/
theorem C10_no_blank_lines (P B : String) :
    ∀ l ∈ splitLines (filterAndNormalizeMediaPlaylist P B), l ≠ "" ∧ jsTrim l = l := by
  intro l hl
  rw [filter_output_lines P B] at hl
  obtain ⟨⟨h1, h2, _⟩, _, _⟩ := output_line_facts hl
  exact ⟨h1, h2⟩

theorem C10_no_blank_lines_witness :
    ("#EXTM3U" : String) ≠ "" ∧ jsTrim "#EXTM3U" = "#EXTM3U" :=
  C10_no_blank_lines "  \n\n" "b" "#EXTM3U" (by decide)

/-- The only `some` the `try` body can produce is the deterministic cache path
derived from the hash of the original URL. -/
theorem createFilteredBody_some_shape {env : FsEnv} {u p : String}
    (h : createFilteredBody env u = Except.ok (some p)) :
    p = FILTER_CACHE_DIR env ++ hashString u ++ ".m3u8" := by
  unfold createFilteredBody at h
  cases hres : resolveToMediaPlaylist env u with
  | error e =>
    rw [hres] at h
    simp [Bind.bind, Except.bind] at h
  | ok pl =>
    rw [hres] at h
    simp only [Bind.bind, Except.bind] at h
    split at h
    · simp [Pure.pure, Except.pure] at h
    · split at h
      · simp [Pure.pure, Except.pure] at h
      · split at h
        · exact Except.noConfusion h
        · split at h
          · exact Except.noConfusion h
          · simp only [Pure.pure, Except.pure, Except.ok.injEq, Option.some.injEq] at h
            exact h.symm

/-- C9: `createDiscontinuityFilteredM3u8Url` never propagates an exception (it
is a total function into `Option`, every `Except.error` of the body being
caught): a URL that is not HTTP(S) or not an `.m3u8` playlist yields `none`;
on a cache miss any fetch/variant/write failure (an erroring body) yields
`none`; and any `some` result is either a verified cache hit or the local
cache path derived from the deterministic hash of the original URL. -/
theorem C9_never_throws (env : FsEnv) (cache : List (String × String)) (url : String) :
    (¬(isHttpLiveUrl url && isM3u8LiveUrl url) = true →
      createDiscontinuityFilteredM3u8Url env cache url = none) ∧
    (cache.lookup url = none → createFilteredBody env url = Except.error () →
      createDiscontinuityFilteredM3u8Url env cache url = none) ∧
    (∀ p, createDiscontinuityFilteredM3u8Url env cache url = some p →
      (∃ cached, cache.lookup url = some cached ∧ env.fileExists cached = true ∧ p = cached) ∨
      p = FILTER_CACHE_DIR env ++ hashString url ++ ".m3u8") := by
  refine ⟨?_, ?_, ?_⟩
  · intro hguard
    unfold createDiscontinuityFilteredM3u8Url
    rw [if_pos hguard]
  · intro hmiss herr
    unfold createDiscontinuityFilteredM3u8Url
    by_cases hguard : ¬(isHttpLiveUrl url && isM3u8LiveUrl url) = true
    · rw [if_pos hguard]
    · rw [if_neg hguard]
      dsimp only
      rw [hmiss, herr]
  · intro p hp
    unfold createDiscontinuityFilteredM3u8Url at hp
    by_cases hguard : ¬(isHttpLiveUrl url && isM3u8LiveUrl url) = true
    · rw [if_pos hguard] at hp
      exact Option.noConfusion hp
    · rw [if_neg hguard] at hp
      dsimp only at hp
      cases hlook : cache.lookup url with
      | some cached =>
        rw [hlook] at hp
        dsimp only at hp
        by_cases hex : env.fileExists cached = true
        · rw [if_pos hex] at hp
          exact Or.inl ⟨cached, rfl, hex, (Option.some.inj hp).symm⟩
        · rw [if_neg hex] at hp
          cases hbody : createFilteredBody env url with
          | error e =>
            rw [hbody] at hp
            exact Option.noConfusion hp
          | ok r =>
            rw [hbody] at hp
            cases r with
            | none => exact Option.noConfusion hp
            | some q =>
              right
              rw [← Option.some.inj hp]
              exact createFilteredBody_some_shape hbody
      | none =>
        rw [hlook] at hp
        dsimp only at hp
        cases hbody : createFilteredBody env url with
        | error e =>
          rw [hbody] at hp
          exact Option.noConfusion hp
        | ok r =>
          rw [hbody] at hp
          cases r with
          | none => exact Option.noConfusion hp
          | some q =>
            right
            rw [← Option.some.inj hp]
            exact createFilteredBody_some_shape hbody

theorem C9_never_throws_witness :
    createDiscontinuityFilteredM3u8Url
      ⟨fun _ => Except.error (), fun _ => false, false, fun _ => false, "/cache/"⟩ [] "x" =
      none :=
  (C9_never_throws
    ⟨fun _ => Except.error (), fun _ => false, false, fun _ => false, "/cache/"⟩ [] "x").1
    (by decide)

end OrionTV
